import Mathlib

/-!
Verification of the translation-catalog core of the Language Management System
(`src/hooks/useTranslations.ts`, types in `src/types/translation.ts`).

The translation tree is a dynamically typed nested JavaScript object: each
object maps keys either to further objects or to strings.  We embed such
values as `JNode`.  Objects are association lists in insertion order, which
is exactly the enumeration order of `Object.entries` / `Object.keys` in JS
for string keys.  JavaScript objects never hold duplicate keys; the list
operations below (assignment, delete) are written so that they agree with JS
on duplicate-free lists and are total on all lists.
-/

inductive JNode where
  | str (s : String)
  | obj (entries : List (String × JNode))
  deriving Repr

abbrev JEntries := List (String × JNode)

/-- The keys of an object, in insertion order (`Object.keys`). -/
def keysOf (es : JEntries) : List String := es.map (·.1)

/-- Property read on an object (`o[k]`); `none` models `undefined`. -/
def lookupEntry (es : JEntries) (k : String) : Option JNode :=
  (es.find? (fun p => p.1 == k)).map (·.2)

/-- Property assignment on an object (`o[k] = v`): an existing key keeps its
position and is overwritten in place, a new key is appended at the end. -/
def setKey (es : JEntries) (k : String) (v : JNode) : JEntries :=
  if es.any (fun p => p.1 == k) then
    es.map (fun p => if p.1 == k then (k, v) else p)
  else es ++ [(k, v)]

/-- Property deletion on an object (`delete o[k]`), preserving the order of
the remaining entries. -/
def eraseKey (es : JEntries) (k : String) : JEntries :=
  es.filter (fun p => p.1 != k)

/-- Indexed read on a string primitive (`s[k]`): defined exactly for the
canonical decimal indices `"0" .. toString (s.length - 1)`, yielding the
one-character string at that position, `undefined` otherwise. -/
def strGet (s k : String) : Option JNode :=
  match k.toNat? with
  | some i =>
      if Nat.repr i = k then (s.toList[i]?).map (fun c => JNode.str (String.singleton c))
      else none
  | none => none

/-- Property read on an arbitrary value (`x[k]` for `x` not `undefined`). -/
def JNode.get : JNode → String → Option JNode
  | .obj es, k => lookupEntry es k
  | .str s, k => strGet s k

/-- `keyPath.split('.')` on the character list: JS `String.prototype.split`
with a one-character separator, so the empty string splits to `[""]` and
consecutive separators produce empty segments. -/
def splitPathChars : List Char → List String
  | [] => [""]
  | c :: rest =>
      if c = '.' then "" :: splitPathChars rest
      else
        match splitPathChars rest with
        | [] => [String.singleton c]
        | w :: ws => (String.singleton c ++ w) :: ws

/-- `keyPath.split('.')`. -/
def splitPath (s : String) : List String := splitPathChars s.toList

/-- Chained property reads along a path, `none` as soon as a step is
`undefined` (used to state where a dotted key path resolves). -/
def getNode (cur : Option JNode) (path : List String) : Option JNode :=
  match path with
  | [] => cur
  | k :: ks =>
      match cur with
      | some n => getNode (n.get k) ks
      | none => none

/-- The `for`-loop `current = current[keys[i]]` over a path prefix:
`.error` models the `TypeError` thrown by a property read on `undefined`
(the loop reads a property of the previous step's result). -/
def walk (cur : Option JNode) (path : List String) : Except Unit (Option JNode) :=
  match path with
  | [] => .ok cur
  | k :: ks =>
      match cur with
      | some n => walk (n.get k) ks
      | none => .error ()

/-- The node classifier of the hook: a value is treated as a translation
leaf iff at least one of its direct keys is an active language code
(`Object.keys(value).some(k => data.languages.includes(k))`). -/
def leafCheck (langs : List String) (es : JEntries) : Bool :=
  es.any (fun p => langs.contains p.1)

/-- `Object.keys` of a string primitive: its canonical index strings. -/
def strKeys (s : String) : List String := (List.range s.length).map Nat.repr

/-- `TranslationData` (project name, ordered language list, translation
tree).  The tree root is always an object, so we carry its entries. -/
structure Catalog where
  project : String
  languages : List String
  translations : JEntries
  deriving Repr

/-- `UnsavedChange`.  `originalValue` is what the untyped lookup
`originalCurrent[lastKey]?.[language] || ''` produced: normally a string,
but an object when the snapshot holds a nested object at that spot, so we
keep it as a `JNode` (`.str` for the string case). -/
structure UnsavedChange where
  keyPath : String
  language : String
  originalValue : JNode
  newValue : String
  deriving Repr

/-- The sentinel language value used to track key renames. -/
def renameSentinel : String := "__key_rename__"

/-- The in-memory editing session after a successful load: the current
catalog (`data`), the original snapshot (`originalData`) and the pending
changes (`unsavedChanges`).  `loading`/`error` and the pre-load `null`
states play no part in the claims. -/
structure EditorState where
  data : Catalog
  originalData : Catalog
  unsavedChanges : List UnsavedChange
  deriving Repr

/-! ## `updateTranslation` -/

/-- The tree part of `updateTranslation` below the root: navigate the
remaining prefix, then perform `if (current[lastKey]) current[lastKey][language] = value`.
`.error` models a thrown `TypeError`: a property read on `undefined`
mid-prefix (there is always a further read, namely `current[lastKey]`), or
a property assignment on a non-empty string primitive (these modules are
strict mode, so assigning to a string throws). An empty string is falsy, so
the guard skips the assignment. -/
def updTreeNode (n : JNode) (pre : List String) (lastKey language value : String) :
    Except Unit JNode :=
  match pre with
  | [] =>
      match n with
      | .obj es =>
          match lookupEntry es lastKey with
          | some (.obj les) =>
              .ok (.obj (setKey es lastKey (.obj (setKey les language (.str value)))))
          | some (.str s) => if s == "" then .ok n else .error ()
          | none => .ok n
      | .str s =>
          match strGet s lastKey with
          | some _ => .error ()
          | none => .ok n
  | k :: ks =>
      match n with
      | .obj es =>
          match lookupEntry es k with
          | some child =>
              (updTreeNode child ks lastKey language value).map (fun c => .obj (setKey es k c))
          | none => .error ()
      | .str s =>
          match strGet s k with
          | some c => (updTreeNode c ks lastKey language value).map (fun _ => n)
          | none => .error ()

/-- The tree part of `updateTranslation` at the root object. -/
def updTreeEntries (es : JEntries) (pre : List String) (lastKey language value : String) :
    Except Unit JEntries :=
  match pre with
  | [] =>
      match lookupEntry es lastKey with
      | some (.obj les) => .ok (setKey es lastKey (.obj (setKey les language (.str value))))
      | some (.str s) => if s == "" then .ok es else .error ()
      | none => .ok es
  | k :: ks =>
      match lookupEntry es k with
      | some child => (updTreeNode child ks lastKey language value).map (fun c => setKey es k c)
      | none => .error ()

/-- The change-tracking lookup of `updateTranslation`: navigate the original
snapshot through the prefix, then `originalCurrent[lastKey]?.[language] || ''`.
The prefix loop and the unguarded `originalCurrent[lastKey]` read throw on
`undefined`; only the `[language]` read is optional-chained, and `|| ''`
turns `undefined` and `''` into `''` while letting objects through. -/
def origLookup (root : JEntries) (pre : List String) (lastKey language : String) :
    Except Unit JNode :=
  match walk (some (.obj root)) pre with
  | .error _ => .error ()
  | .ok none => .error ()
  | .ok (some n) =>
      match n.get lastKey with
      | none => .ok (.str "")
      | some m => .ok ((m.get language).getD (.str ""))

/-- `updateTranslation(keyPath, language, value)`.  `.error` models an
escaped `TypeError` (no state setter has run at any throw site, so the
React state is left unchanged).  On success the deep-copied tree with the
mutation applied replaces `data`, and the pending-changes list is updated:
the entry for `(keyPath, language)` is removed when the value reverts to
the snapshot value, otherwise upserted. -/
def updateTranslation (st : EditorState) (keyPath language value : String) :
    Except Unit EditorState :=
  let keys := splitPath keyPath
  let pre := keys.dropLast
  let lastKey := keys.getLastD ""
  match updTreeEntries st.data.translations pre lastKey language value with
  | .error _ => .error ()
  | .ok ts' =>
      match origLookup st.originalData.translations pre lastKey language with
      | .error _ => .error ()
      | .ok origVal =>
          let matchesTarget := fun (c : UnsavedChange) =>
            c.keyPath == keyPath && c.language == language
          let reverted := match origVal with
            | .str s => s == value
            | .obj _ => false
          let newChanges :=
            if reverted then
              match st.unsavedChanges.findIdx? matchesTarget with
              | some i => st.unsavedChanges.eraseIdx i
              | none => st.unsavedChanges
            else
              let change : UnsavedChange := ⟨keyPath, language, origVal, value⟩
              match st.unsavedChanges.findIdx? matchesTarget with
              | some i => st.unsavedChanges.set i change
              | none => st.unsavedChanges ++ [change]
          .ok { st with
                data := { st.data with translations := ts' },
                unsavedChanges := newChanges }

/-! ## `renameKey` -/

/-- The tree part of `renameKey` below the root: navigate the prefix, then
`if (parent[oldKey] !== undefined) { parent[newKeyName] = parent[oldKey]; delete parent[oldKey]; }`.
`.error` again models a thrown `TypeError` (property read on `undefined`
mid-prefix, or assignment to a string primitive in strict mode). -/
def renameTreeNode (n : JNode) (pre : List String) (oldKey newKey : String) :
    Except Unit JNode :=
  match pre with
  | [] =>
      match n with
      | .obj es =>
          match lookupEntry es oldKey with
          | some v => .ok (.obj (eraseKey (setKey es newKey v) oldKey))
          | none => .ok n
      | .str s =>
          match strGet s oldKey with
          | some _ => .error ()
          | none => .ok n
  | k :: ks =>
      match n with
      | .obj es =>
          match lookupEntry es k with
          | some child =>
              (renameTreeNode child ks oldKey newKey).map (fun c => .obj (setKey es k c))
          | none => .error ()
      | .str s =>
          match strGet s k with
          | some c => (renameTreeNode c ks oldKey newKey).map (fun _ => n)
          | none => .error ()

/-- The tree part of `renameKey` at the root object. -/
def renameTreeEntries (es : JEntries) (pre : List String) (oldKey newKey : String) :
    Except Unit JEntries :=
  match pre with
  | [] =>
      match lookupEntry es oldKey with
      | some v => .ok (eraseKey (setKey es newKey v) oldKey)
      | none => .ok es
  | k :: ks =>
      match lookupEntry es k with
      | some child => (renameTreeNode child ks oldKey newKey).map (fun c => setKey es k c)
      | none => .error ()

/-- `renameKey(oldPath, newKeyName)`: rename in the deep-copied tree (a
no-op on the tree when the old key is absent), then unconditionally append
a pending change recording the rename under the sentinel language. -/
def renameKey (st : EditorState) (oldPath newKeyName : String) :
    Except Unit EditorState :=
  let keys := splitPath oldPath
  let pre := keys.dropLast
  let oldKey := keys.getLastD ""
  match renameTreeEntries st.data.translations pre oldKey newKeyName with
  | .error _ => .error ()
  | .ok ts' =>
      .ok { st with
            data := { st.data with translations := ts' },
            unsavedChanges := st.unsavedChanges ++
              [⟨oldPath, renameSentinel, .str oldKey, newKeyName⟩] }

/-! ## `addLanguage` / `removeLanguage` -/

/-- The recursive walk of `addLanguage` over a namespace object: entries
whose value is not an object fail the `typeof` check and are dropped; a
leaf (per `leafCheck` against the languages active at call time) gains the
new language with an empty value via `{ ...value, [languageCode]: '' }`;
any other object is recursed into. -/
def addLangEntries (langs : List String) (c : String) : JEntries → JEntries
  | [] => []
  | (_, .str _) :: rest => addLangEntries langs c rest
  | (k, .obj es) :: rest =>
      if leafCheck langs es then
        (k, .obj (setKey es c (.str ""))) :: addLangEntries langs c rest
      else
        (k, .obj (addLangEntries langs c es)) :: addLangEntries langs c rest

/-- `addLanguage(languageCode)`: a no-op when the code is already active;
otherwise every leaf gains the code with an empty value and the code is
appended to the language list. -/
def addLanguage (st : EditorState) (c : String) : EditorState :=
  if st.data.languages.contains c then st
  else
    { st with
      data := { st.data with
                languages := st.data.languages ++ [c],
                translations := addLangEntries st.data.languages c st.data.translations } }

/-- The recursive walk of `removeLanguage`: entries whose value is not an
object are dropped by the `typeof` check; a leaf loses the language's entry
via the rest-destructuring `const { [languageCode]: _, ...rest } = value`;
any other object is recursed into. -/
def removeLangEntries (langs : List String) (c : String) : JEntries → JEntries
  | [] => []
  | (_, .str _) :: rest => removeLangEntries langs c rest
  | (k, .obj es) :: rest =>
      if leafCheck langs es then
        (k, .obj (eraseKey es c)) :: removeLangEntries langs c rest
      else
        (k, .obj (removeLangEntries langs c es)) :: removeLangEntries langs c rest

/-- `removeLanguage(languageCode)`: a no-op when at most one language is
active; otherwise the language is filtered from the list and dropped from
every leaf.  There is no membership check on `languageCode`. -/
def removeLanguage (st : EditorState) (c : String) : EditorState :=
  if st.data.languages.length ≤ 1 then st
  else
    { st with
      data := { st.data with
                languages := st.data.languages.filter (fun l => l != c),
                translations := removeLangEntries st.data.languages c st.data.translations } }

/-! ## `saveChanges` / `discardChanges` -/

/-- `saveChanges`: the simulated API call always succeeds, so the snapshot
is replaced by a deep copy of the current catalog and the pending list is
cleared. -/
def saveChanges (st : EditorState) : EditorState :=
  { st with originalData := st.data, unsavedChanges := [] }

/-- `discardChanges`: the catalog is restored from the snapshot and the
pending list is cleared. -/
def discardChanges (st : EditorState) : EditorState :=
  { st with data := st.originalData, unsavedChanges := [] }

/-! ## `buildTree` -/

/-- The display node produced by `buildTree` (`TreeNode` in
`types/translation.ts`): leaves carry their raw value map in `values` and
no `children`; namespaces carry `children` and no `values`.  Completeness
is a percentage; the source computes it in floating point, embedded here as
exact rational arithmetic on the same formula. -/
inductive TreeNode where
  | mk (key : String) (path : String) (depth : Nat) (leaf : Bool)
       (children : Option (List TreeNode)) (values : Option JNode)
       (completeness : ℚ)

def TreeNode.key : TreeNode → String
  | .mk k _ _ _ _ _ _ => k

def TreeNode.path : TreeNode → String
  | .mk _ p _ _ _ _ _ => p

def TreeNode.depth : TreeNode → Nat
  | .mk _ _ d _ _ _ _ => d

def TreeNode.leaf : TreeNode → Bool
  | .mk _ _ _ l _ _ _ => l

def TreeNode.children : TreeNode → Option (List TreeNode)
  | .mk _ _ _ _ c _ _ => c

def TreeNode.values : TreeNode → Option JNode
  | .mk _ _ _ _ _ v _ => v

def TreeNode.completeness : TreeNode → ℚ
  | .mk _ _ _ _ _ _ c => c

/-- `data.languages.filter(lang => values[lang]?.trim()).length` over a
leaf's value map: counts the active languages whose value is a string that
is non-blank after trimming; `.error` models the `TypeError` thrown when a
value under a language key is an object (objects have no `trim` method). -/
def filledCount (langs : List String) (ves : JEntries) : Except Unit Nat :=
  match langs with
  | [] => .ok 0
  | l :: ls =>
      match lookupEntry ves l with
      | none => filledCount ls ves
      | some (.str s) =>
          (filledCount ls ves).map (fun n => if s.trim == "" then n else n + 1)
      | some (.obj _) => .error ()

/-- The filled-language count when the classified leaf is itself a string
primitive (`values[lang]` is then a canonical-index character read). -/
def filledCountStr (langs : List String) (s : String) : Nat :=
  (langs.filter (fun l =>
    match strGet s l with
    | some (.str c) => c.trim != ""
    | _ => false)).length

/-- The average completeness of a namespace's direct children as computed
by the `reduce` in `buildTree`: the unweighted mean, `100` for an empty
namespace. -/
def nsCompleteness (children : List TreeNode) : ℚ :=
  if children.length > 0 then
    (children.map TreeNode.completeness).sum / (children.length : ℚ)
  else 100

/-- `buildTree(node, path, depth)` over the entries of a namespace object.
Each entry is classified by `leafCheck`; verbatim from the source, a leaf
yields `filledCount / languages.length * 100` and a namespace the mean of
its children's completeness.  A string value at a namespace position is
enumerated character by character by `Object.entries`: when some canonical
index is an active language the string is classified as a leaf, the empty
string yields an empty namespace, and otherwise the recursion descends
through identical one-character strings forever — modelled as `.error`
(the stack overflow escapes like an exception). -/
def buildEntries (langs : List String) : JEntries → String → Nat → Except Unit (List TreeNode)
  | [], _, _ => .ok []
  | (k, v) :: rest, path, depth =>
      let currentPath := if path == "" then k else path ++ "." ++ k
      let node : Except Unit TreeNode :=
        match v with
        | .str s =>
            if (strKeys s).any langs.contains then
              .ok (.mk k currentPath depth true none (some (.str s))
                ((filledCountStr langs s : ℚ) / (langs.length : ℚ) * 100))
            else if s == "" then
              .ok (.mk k currentPath depth false (some []) none 100)
            else .error ()
        | .obj ves =>
            if leafCheck langs ves then
              (filledCount langs ves).map (fun cnt =>
                .mk k currentPath depth true none (some (.obj ves))
                  ((cnt : ℚ) / (langs.length : ℚ) * 100))
            else
              (buildEntries langs ves currentPath (depth + 1)).map (fun children =>
                .mk k currentPath depth false (some children) none (nsCompleteness children))
      match node with
      | .error _ => .error ()
      | .ok nd =>
          match buildEntries langs rest path depth with
          | .error _ => .error ()
          | .ok rest' => .ok (nd :: rest')

/-- The hook's `buildTree` applied to the catalog's tree with the default
`path = ''`, `depth = 0`. -/
def buildTree (st : EditorState) : Except Unit (List TreeNode) :=
  buildEntries st.data.languages st.data.translations "" 0

/-! ## `exportToJson` -/

/-- `extractLanguage` over a namespace object: entries whose value is not
an object are dropped by the `typeof` check; a leaf is replaced by
`value[lang] || ''` (the language's value, empty string when absent or
empty, objects passing through as they are truthy); other objects are
recursed into. -/
def extractLangEntries (langs : List String) (lang : String) : JEntries → JEntries
  | [] => []
  | (_, .str _) :: rest => extractLangEntries langs lang rest
  | (k, .obj es) :: rest =>
      if leafCheck langs es then
        (k, (lookupEntry es lang).getD (.str "")) :: extractLangEntries langs lang rest
      else
        (k, .obj (extractLangEntries langs lang es)) :: extractLangEntries langs lang rest

/-- `exportToJson(language?)`: with a truthy language argument the tree is
rebuilt with every leaf replaced by that language's value; with no
argument — or the falsy empty string — the full tree is returned as is. -/
def exportToJson (st : EditorState) (language : Option String) : JEntries :=
  match language with
  | some l =>
      if l == "" then st.data.translations
      else extractLangEntries st.data.languages l st.data.translations
  | none => st.data.translations

/-! ## Operations and reachability -/

/-- The edit entry points a caller can invoke on a loaded session. -/
inductive Op where
  | update (keyPath language value : String)
  | rename (oldPath newKeyName : String)
  | addLang (c : String)
  | removeLang (c : String)
  | save
  | discard

/-- One call.  For the two fallible operations an escaped `TypeError`
leaves the React state unchanged (every throw site precedes the state
setters). -/
def step (st : EditorState) : Op → EditorState
  | .update p l v =>
      match updateTranslation st p l v with
      | .ok st' => st'
      | .error _ => st
  | .rename p n =>
      match renameKey st p n with
      | .ok st' => st'
      | .error _ => st
  | .addLang c => addLanguage st c
  | .removeLang c => removeLanguage st c
  | .save => saveChanges st
  | .discard => discardChanges st

/-- A sequence of calls. -/
def applyOps (st : EditorState) (ops : List Op) : EditorState := ops.foldl step st

/-! ## Data-model predicates (from §3 of the spec)

`validEntries` is the data model's shape: below a namespace every entry is
an object; an object classified as a leaf is a language map (string values,
keys drawn from the active codes); everything else is a namespace and is
recursed into.  `invEntries` is only the leaf invariant claimed in C5: the
key set of every leaf's map is a subset of the active codes.
`nsAvoidKey langs c` says no namespace-classified object has a direct key
equal to `c`. -/

def validEntries (langs : List String) : JEntries → Bool
  | [] => true
  | (_, .str _) :: _ => false
  | (_, .obj es) :: rest =>
      (if leafCheck langs es then
        es.all (fun p => (match p.2 with | .str _ => true | .obj _ => false)
          && langs.contains p.1)
      else validEntries langs es)
      && validEntries langs rest

def invEntries (langs : List String) : JEntries → Bool
  | [] => true
  | (_, .str _) :: rest => invEntries langs rest
  | (_, .obj es) :: rest =>
      (if leafCheck langs es then es.all (fun p => langs.contains p.1)
       else invEntries langs es)
      && invEntries langs rest

def nsAvoidKey (langs : List String) (c : String) : JEntries → Bool
  | [] => true
  | (_, .str _) :: rest => nsAvoidKey langs c rest
  | (_, .obj es) :: rest =>
      (if leafCheck langs es then true
       else (!es.any (fun p => p.1 == c)) && nsAvoidKey langs c es)
      && nsAvoidKey langs c rest

/-! ## Spec-side definitions (for refinement-style claims) -/

/-- Modelled from the spec: "the single string value for that language
(empty string if absent)" read off a leaf's value map. -/
def specLeafValue (es : JEntries) (lang : String) : String :=
  match lookupEntry es lang with
  | some (.str s) => s
  | _ => ""

/-- Modelled from the spec (§4.6): the single-language export "recursively
rebuilds the tree, replacing every Leaf's value map with the single string
value for that language (empty string if absent), preserving all namespace
nesting and ordering". -/
def specExportEntries (langs : List String) (lang : String) : JEntries → JEntries
  | [] => []
  | (k, .str s) :: rest => (k, .str s) :: specExportEntries langs lang rest
  | (k, .obj es) :: rest =>
      if leafCheck langs es then
        (k, .str (specLeafValue es lang)) :: specExportEntries langs lang rest
      else
        (k, .obj (specExportEntries langs lang es)) :: specExportEntries langs lang rest

/-- Modelled from the spec (§4.5): leaf completeness is "(count of active
languages whose value is a non-blank string after trimming whitespace) ÷
(total active language count) × 100". -/
def specLeafCompleteness (langs : List String) (ves : JEntries) : ℚ :=
  (((langs.filter (fun l =>
      match lookupEntry ves l with
      | some (.str s) => s.trim != ""
      | _ => false)).length : ℚ) / (langs.length : ℚ)) * 100

/-- Modelled from the spec (§4.5): namespace completeness is the unweighted
arithmetic mean of the direct children's completeness, `100` for a
namespace with zero children. -/
def specNsMean (children : List TreeNode) : ℚ :=
  if children.length = 0 then 100
  else (children.map TreeNode.completeness).sum / (children.length : ℚ)

/-- The claim C7 property over a produced display forest: every leaf node's
stored completeness equals the spec's leaf formula recomputed from its own
stored value map, and every namespace node's equals the spec's unweighted
mean recomputed from its stored children (recursively well-formed).  Nodes
of any other shape (e.g. a leaf without a value map) do not occur and fail
the check. -/
def specForestOK (langs : List String) : List TreeNode → Bool
  | [] => true
  | .mk _ _ _ true none (some (.obj ves)) comp :: rest =>
      decide (comp = specLeafCompleteness langs ves) && specForestOK langs rest
  | .mk _ _ _ false (some children) none comp :: rest =>
      decide (comp = specNsMean children) && specForestOK langs children
        && specForestOK langs rest
  | _ :: _ => false

/-- Modelled from the claim C4's wording: "the Original Snapshot's value at
(p, l) (an absent original entry counting as the empty string)"; `none`
when the snapshot holds a nested object rather than a string there. -/
def specSnapshotValue (root : JEntries) (keyPath language : String) : Option String :=
  match getNode (some (.obj root)) ((splitPath keyPath ++ [language])) with
  | some (.str s) => some s
  | none => some ""
  | some (.obj _) => none

/-! ## Concrete demonstration states -/

def demoTree : JEntries :=
  [("auth", .obj [("login", .obj [
      ("title", .obj [("en", .str "Login"), ("de", .str "Anmelden")]),
      ("subtitle", .obj [("en", .str "Welcome back"), ("de", .str "Willkommen")]),
      ("forgot_password", .obj [("en", .str "Forgot password?"), ("de", .str "")])])])]

def demoCatalog : Catalog :=
  { project := "Languge Management System", languages := ["en", "de"],
    translations := demoTree }

/-- A freshly loaded session: catalog and snapshot agree, no pending
changes. -/
def demoState : EditorState :=
  { data := demoCatalog, originalData := demoCatalog, unsavedChanges := [] }

/-! ## Derived predicates used by the claims -/

/-- The identity of a pending change for deduplication purposes. -/
def chgKey (c : UnsavedChange) : String × String := (c.keyPath, c.language)

/-- At most one pending entry per `(keyPath, language)` pair for every
language other than the rename sentinel; sentinel entries may repeat. -/
def DedupNonRename (cs : List UnsavedChange) : Prop :=
  (cs.map chgKey).Pairwise (fun x y => x ≠ y ∨ x.2 = renameSentinel)

/-- The language lists of both the catalog and the snapshot are non-empty
lists of distinct codes ("an ordered set of unique language codes" with at
least one language, as the data model requires of a loaded catalog). -/
def LangsOK (st : EditorState) : Prop :=
  st.data.languages ≠ [] ∧ st.data.languages.Nodup ∧
  st.originalData.languages ≠ [] ∧ st.originalData.languages.Nodup

/-- A loaded session with a single language, for exercising the
at-least-one-language guard. -/
def oneLangCatalog : Catalog :=
  { project := "p", languages := ["en"],
    translations := [("home", .obj [("title", .obj [("en", .str "Home")])])] }

def oneLangState : EditorState :=
  { data := oneLangCatalog, originalData := oneLangCatalog, unsavedChanges := [] }

/-- A session exhibiting the namespace/new-language-code name collision: a
namespace named `fr` (not an active code) above a leaf. -/
def c6Catalog : Catalog :=
  { project := "p", languages := ["en"],
    translations := [("x", .obj [("fr", .obj [("a", .obj [("en", .str "hi")])])])] }

def c6State : EditorState :=
  { data := c6Catalog, originalData := c6Catalog, unsavedChanges := [] }

/-- A session with three sibling leaves, for exercising a rename onto an
existing sibling name. -/
def c10Catalog : Catalog :=
  { project := "p", languages := ["en"],
    translations := [("ns", .obj
      [("b", .obj [("en", .str "1")]),
       ("c", .obj [("en", .str "2")]),
       ("d", .obj [("en", .str "3")])])] }

def c10State : EditorState :=
  { data := c10Catalog, originalData := c10Catalog, unsavedChanges := [] }

/-- A session with a namespace at `a` whose only child is the leaf `a.b`,
for exercising an update addressed at the namespace itself. -/
def c5Catalog : Catalog :=
  { project := "p", languages := ["en"],
    translations := [("a", .obj [("b", .obj [("en", .str "x")])])] }

def c5State : EditorState :=
  { data := c5Catalog, originalData := c5Catalog, unsavedChanges := [] }

/-- A session whose active language list contains the empty string, which
`exportToJson` treats as "no language given" (JS falsiness). -/
def c9Catalog : Catalog :=
  { project := "p", languages := [""],
    translations := [("a", .obj [("", .str "v")])] }

def c9State : EditorState :=
  { data := c9Catalog, originalData := c9Catalog, unsavedChanges := [] }

/-- The constraint the leaf invariant places on a single child value: a
string is unconstrained, a leaf-classified object must draw its keys from
the active codes, a namespace-classified object is checked recursively. -/
def invNodeB (langs : List String) : JNode → Bool
  | .str _ => true
  | .obj es =>
      if leafCheck langs es then es.all (fun p => langs.contains p.1)
      else invEntries langs es

/-- Guard under which an update preserves the leaf invariant: the written
language is active, and the node the key path resolves to (if any, and if
an object) is leaf-classified. -/
def updOK (st : EditorState) (keyPath language : String) : Prop :=
  language ∈ st.data.languages ∧
  ∀ les, getNode (some (.obj st.data.translations)) (splitPath keyPath) =
      some (.obj les) → leafCheck st.data.languages les = true

/-- Guard under which a rename preserves the leaf invariant: either the
rename happens at the root object, or the parent (if it resolves to an
object) is namespace-classified and the new name is not an active code. -/
def renOK (st : EditorState) (oldPath n : String) : Prop :=
  (splitPath oldPath).dropLast = [] ∨
  ((∀ pes, getNode (some (.obj st.data.translations)) ((splitPath oldPath).dropLast) =
      some (.obj pes) → leafCheck st.data.languages pes = false) ∧
    n ∉ st.data.languages)

/-- Guard on each operation for the leaf invariant of claim C5; the
language transforms, save and discard need none beyond `addLanguage`'s
requirement that the new code collides with no namespace key. -/
def opOK (st : EditorState) : Op → Prop
  | .update p l _ => updOK st p l
  | .rename p n => renOK st p n
  | .addLang c => st.data.languages.contains c = true ∨
      nsAvoidKey st.data.languages c st.data.translations = true
  | .removeLang _ => True
  | .save => True
  | .discard => True

/-- The leaf invariant of claim C5 on both the catalog and the snapshot:
the key set of every leaf-classified node is contained in the respective
language list. -/
def InvState (st : EditorState) : Prop :=
  invEntries st.data.languages st.data.translations = true ∧
  invEntries st.originalData.languages st.originalData.translations = true

/-- The predicate `updateTranslation` uses to find the pending entry for a
`(keyPath, language)` pair. -/
def matchPL (p l : String) (c : UnsavedChange) : Bool :=
  c.keyPath == p && c.language == l

/-- No pending entry for the pair `(p, l)`. -/
def NoPL (p l : String) (cs : List UnsavedChange) : Prop :=
  ∀ c ∈ cs, matchPL p l c = false

/-- At most one pending entry for the pair `(p, l)`. -/
def AtMostOnePL (p l : String) (cs : List UnsavedChange) : Prop :=
  cs.countP (matchPL p l) ≤ 1

/-- No non-sentinel pending entry records a new value equal to its original
value (claim C4's "no no-op edits"). -/
def NoNoop (cs : List UnsavedChange) : Prop :=
  ∀ c ∈ cs, c.language ≠ renameSentinel → c.originalValue ≠ .str c.newValue

/-- A sequence of `updateTranslation` calls at a fixed path and language. -/
def applyUpdates (st : EditorState) (p l : String) (vs : List String) : EditorState :=
  applyOps st (vs.map (fun v => Op.update p l v))

/-! ## Induction principle for entry lists -/

/-- Structural induction over the nested entry lists: a motive holds of all
entry lists if it holds of `[]`, is preserved by consing a string entry,
and is preserved by consing an object entry given it holds of that
object's entries. -/
theorem jentries_ind (P : JEntries → Prop) (h0 : P [])
    (hstr : ∀ k s rest, P rest → P ((k, .str s) :: rest))
    (hobj : ∀ k es rest, P es → P rest → P ((k, .obj es) :: rest)) :
    ∀ es, P es := by
  have key : ∀ n : Nat, ∀ es : JEntries, sizeOf es ≤ n → P es := by
    intro n
    induction n with
    | zero =>
        intro es h
        match es with
        | [] => exact h0
        | e :: rest => simp at h
    | succ n ih =>
        intro es h
        match es with
        | [] => exact h0
        | (k, .str s) :: rest =>
            refine hstr k s rest (ih rest ?_)
            have := List.cons.sizeOf_spec (k, JNode.str s) rest
            omega
        | (k, .obj ces) :: rest =>
            have h1 : sizeOf ces ≤ n := by
              have := List.cons.sizeOf_spec (k, JNode.obj ces) rest
              have := Prod.mk.sizeOf_spec k (JNode.obj ces)
              have := JNode.obj.sizeOf_spec ces
              omega
            have h2 : sizeOf rest ≤ n := by
              have := List.cons.sizeOf_spec (k, JNode.obj ces) rest
              omega
            exact hobj k ces rest (ih ces h1) (ih rest h2)
  exact fun es => key (sizeOf es) es le_rfl

/-! ## General list lemmas -/

theorem list_set_self {α : Type} (l : List α) (i : Nat) (h : i < l.length) :
    l.set i l[i] = l := by
  apply List.ext_getElem
  · simp
  · intro j h1 h2
    by_cases hij : i = j
    · subst hij; simp
    · rw [List.getElem_set_ne hij]

theorem map_eraseIdx' {α β : Type} (f : α → β) :
    ∀ (l : List α) (i : Nat), (l.eraseIdx i).map f = (l.map f).eraseIdx i
  | [], _ => by simp
  | _ :: _, 0 => by simp [List.eraseIdx]
  | a :: l, i + 1 => by simp [List.eraseIdx, map_eraseIdx' f l i]

/-! ## Deduplication of pending changes (claim C3) -/

theorem dedup_update (st : EditorState) (p l v : String) (st' : EditorState)
    (h : DedupNonRename st.unsavedChanges)
    (hok : updateTranslation st p l v = .ok st') :
    DedupNonRename st'.unsavedChanges := by
  simp only [updateTranslation] at hok
  split at hok
  · exact absurd hok (by simp)
  split at hok
  · exact absurd hok (by simp)
  simp only [Except.ok.injEq] at hok
  subst hok
  simp only [DedupNonRename]
  split
  · split
    · next i hfind =>
        rw [map_eraseIdx']
        exact List.Pairwise.eraseIdx i h
    · exact h
  · split
    · next i hfind =>
        rw [List.findIdx?_eq_some_iff_getElem] at hfind
        obtain ⟨hi, hp, _⟩ := hfind
        have hkey : chgKey st.unsavedChanges[i] = (p, l) := by
          simp only [Bool.and_eq_true, beq_iff_eq] at hp
          simp [chgKey, hp.1, hp.2]
        rw [List.map_set]
        have hlen : i < (st.unsavedChanges.map chgKey).length := by simpa using hi
        have hset :
            (st.unsavedChanges.map chgKey).set i (p, l) = st.unsavedChanges.map chgKey := by
          have h1 : (st.unsavedChanges.map chgKey)[i] = (p, l) := by
            rw [List.getElem_map]; exact hkey
          conv_lhs => rw [← h1]
          exact list_set_self _ i hlen
        simp only [chgKey]
        rw [hset]
        exact h
    · next hfind =>
        rw [List.findIdx?_eq_none_iff] at hfind
        rw [List.map_append]
        apply List.pairwise_append.mpr
        refine ⟨h, by simp, ?_⟩
        intro x hx y hy
        simp only [List.map_cons, List.map_nil, List.mem_singleton] at hy
        subst hy
        left
        simp only [List.mem_map] at hx
        obtain ⟨c, hc, rfl⟩ := hx
        have := hfind c hc
        simp only [Bool.and_eq_true, beq_iff_eq, Bool.not_eq_true] at this
        intro hcontra
        simp only [chgKey, Prod.mk.injEq] at hcontra
        simp [hcontra.1, hcontra.2] at this

theorem dedup_rename (st : EditorState) (p n : String) (st' : EditorState)
    (h : DedupNonRename st.unsavedChanges)
    (hok : renameKey st p n = .ok st') :
    DedupNonRename st'.unsavedChanges := by
  simp only [renameKey] at hok
  split at hok
  · exact absurd hok (by simp)
  simp only [Except.ok.injEq] at hok
  subst hok
  simp only [DedupNonRename, List.map_append]
  apply List.pairwise_append.mpr
  refine ⟨h, by simp, ?_⟩
  intro x hx y hy
  simp only [List.map_cons, List.map_nil, List.mem_singleton] at hy
  subst hy
  by_cases hxy : x = (p, renameSentinel)
  · right; rw [hxy]
  · left; exact hxy

theorem dedup_step (st : EditorState) (op : Op)
    (h : DedupNonRename st.unsavedChanges) :
    DedupNonRename (step st op).unsavedChanges := by
  cases op with
  | update p l v =>
      simp only [step]
      split
      · next st' hok => exact dedup_update st p l v st' h hok
      · exact h
  | rename p n =>
      simp only [step]
      split
      · next st' hok => exact dedup_rename st p n st' h hok
      · exact h
  | addLang c =>
      simp only [step, addLanguage]
      split <;> exact h
  | removeLang c =>
      simp only [step, removeLanguage]
      split <;> exact h
  | save => simp [step, saveChanges, DedupNonRename]
  | discard => simp [step, discardChanges, DedupNonRename]

/-! ## Claim C1 -/

/-- C1: the claim states that `updateTranslation` and `renameKey` on a key
path that does not resolve are complete no-ops with no escaping error.  The
code contradicts this (and §7 of the spec, which it was meant to realise)
three ways, shown here on the freshly loaded demo catalog: a missing
intermediate segment makes `updateTranslation` throw a `TypeError`; a
missing final segment leaves the tree alone but still records a pending
change with the fabricated original value `''`; and `renameKey` on a
missing final key also appends a rename entry to the pending list. -/
theorem C1_missing_path_is_not_noop :
    updateTranslation demoState "auth.missing.title" "en" "x" = .error () ∧
    updateTranslation demoState "auth.login.nothere" "en" "x" =
      .ok { demoState with
            unsavedChanges := [⟨"auth.login.nothere", "en", .str "", "x"⟩] } ∧
    renameKey demoState "auth.login.nothere" "newname" =
      .ok { demoState with
            unsavedChanges := [⟨"auth.login.nothere", renameSentinel, .str "nothere", "newname"⟩] } :=
  ⟨rfl, rfl, rfl⟩

/-! ## Claim C3 -/

/-- C3 counterexample: after two `renameKey` calls on the same (by then
stale) path the pending list holds two entries with the identical
`(keyPath, language)` pair — the claimed at-most-one-entry-per-pair
property, sentinel included, is false. -/
theorem C3_counterexample :
    ¬ ((applyOps demoState
          [.rename "auth" "x1", .rename "auth" "x1"]).unsavedChanges.Pairwise
        (fun a b => ¬(a.keyPath = b.keyPath ∧ a.language = b.language))) := by
  decide

/-- C3 (amended): in every state reachable by any sequence of calls from a
state whose pending list is deduplicated (e.g. a freshly loaded one), the
pending list has at most one entry per `(keyPath, language)` pair for every
language other than the rename sentinel; rename entries are appended
unconditionally and may repeat. -/
theorem C3_pending_changes_dedup (st : EditorState) (ops : List Op)
    (h : DedupNonRename st.unsavedChanges) :
    DedupNonRename (applyOps st ops).unsavedChanges := by
  induction ops generalizing st with
  | nil => exact h
  | cons op ops ih => exact ih _ (dedup_step st op h)

/-- C3 witness: the amended dedup property holds concretely after an edit
and two renames from the loaded demo session. -/
theorem C3_pending_changes_dedup_witness :
    DedupNonRename (applyOps demoState
      [.update "auth.login.title" "de" "X", .rename "auth.login.title" "heading",
       .rename "auth.login.title" "heading"]).unsavedChanges :=
  C3_pending_changes_dedup demoState _ (by simp [DedupNonRename, demoState])

/-! ## Language-list bookkeeping (claim C8) -/

theorem languages_of_update (st : EditorState) (p l v : String) (st' : EditorState)
    (hok : updateTranslation st p l v = .ok st') :
    st'.data.languages = st.data.languages ∧ st'.originalData = st.originalData := by
  simp only [updateTranslation] at hok
  split at hok
  · exact absurd hok (by simp)
  split at hok
  · exact absurd hok (by simp)
  simp only [Except.ok.injEq] at hok
  subst hok
  exact ⟨rfl, rfl⟩

theorem languages_of_rename (st : EditorState) (p n : String) (st' : EditorState)
    (hok : renameKey st p n = .ok st') :
    st'.data.languages = st.data.languages ∧ st'.originalData = st.originalData := by
  simp only [renameKey] at hok
  split at hok
  · exact absurd hok (by simp)
  simp only [Except.ok.injEq] at hok
  subst hok
  exact ⟨rfl, rfl⟩

theorem langsOK_step (st : EditorState) (op : Op) (h : LangsOK st) :
    LangsOK (step st op) := by
  obtain ⟨h1, h2, h3, h4⟩ := h
  cases op with
  | update p l v =>
      simp only [step]
      split
      · next st' hok =>
          obtain ⟨hl, ho⟩ := languages_of_update st p l v st' hok
          exact ⟨by rw [hl]; exact h1, by rw [hl]; exact h2, by rw [ho]; exact h3,
            by rw [ho]; exact h4⟩
      · exact ⟨h1, h2, h3, h4⟩
  | rename p n =>
      simp only [step]
      split
      · next st' hok =>
          obtain ⟨hl, ho⟩ := languages_of_rename st p n st' hok
          exact ⟨by rw [hl]; exact h1, by rw [hl]; exact h2, by rw [ho]; exact h3,
            by rw [ho]; exact h4⟩
      · exact ⟨h1, h2, h3, h4⟩
  | addLang c =>
      simp only [step, addLanguage]
      split
      · exact ⟨h1, h2, h3, h4⟩
      · next hc =>
          have hc' : c ∉ st.data.languages := by
            intro hmem
            rw [List.contains_eq_any_beq] at hc
            have : st.data.languages.any (fun x => c == x) = true :=
              List.any_eq_true.mpr ⟨c, hmem, by simp⟩
            rw [this] at hc
            exact hc rfl
          refine ⟨by simp, ?_, h3, h4⟩
          show (st.data.languages ++ [c]).Nodup
          rw [List.nodup_append]
          exact ⟨h2, by simp, fun a ha hb => hc' (by
            simp only [List.mem_singleton] at hb; rw [← hb]; exact ha)⟩
  | removeLang c =>
      simp only [step, removeLanguage]
      split
      · exact ⟨h1, h2, h3, h4⟩
      · next hlen =>
          push_neg at hlen
          refine ⟨?_, List.Nodup.filter _ h2, h3, h4⟩
          show st.data.languages.filter (fun l => l != c) ≠ []
          have hcount : st.data.languages.count c ≤ 1 :=
            List.nodup_iff_count_le_one.mp h2 c
          have hsplit := List.length_eq_countP_add_countP (p := fun l => l == c)
            (l := st.data.languages)
          have hcnt : st.data.languages.countP (fun l => l == c) =
              st.data.languages.count c := rfl
          have hfl : st.data.languages.countP (fun l => l != c) =
              (st.data.languages.filter (fun l => l != c)).length :=
            List.countP_eq_length_filter _ _
          have hne : st.data.languages.countP (fun l => l != c) =
              st.data.languages.countP (fun a => decide (¬(a == c) = true)) := by
            apply List.countP_congr
            intro a _
            simp [bne]
          have hlenf : (st.data.languages.filter (fun l => l != c)).length ≥ 1 := by
            omega
          intro hnil
          rw [hnil] at hlenf
          simp at hlenf
  | save => exact ⟨h1, h2, h1, h2⟩
  | discard => exact ⟨h3, h4, h3, h4⟩

theorem removeLangEntries_id (L : List String) (c : String) (hc : c ∉ L) :
    ∀ es : JEntries, validEntries L es = true → removeLangEntries L c es = es := by
  apply jentries_ind (P := fun es => validEntries L es = true → removeLangEntries L c es = es)
  · intro; simp [removeLangEntries]
  · intro k s rest ih hval
    simp [validEntries] at hval
  · intro k es rest ihes ihrest hval
    simp only [validEntries, Bool.and_eq_true] at hval
    obtain ⟨hhead, hrest⟩ := hval
    simp only [removeLangEntries]
    by_cases hleaf : leafCheck L es = true
    · rw [if_pos hleaf]
      rw [if_pos hleaf] at hhead
      have herase : eraseKey es c = es := by
        apply List.filter_eq_self.mpr
        intro p hp
        have := List.all_eq_true.mp hhead p hp
        simp only [Bool.and_eq_true] at this
        have hmem : p.1 ∈ L := by
          have h2 := this.2
          rw [List.contains_eq_any_beq] at h2
          obtain ⟨a, ha, hbeq⟩ := List.any_eq_true.mp h2
          rw [beq_iff_eq] at hbeq
          rw [hbeq]; exact ha
        simp only [bne_iff_ne, ne_eq]
        intro hpc
        rw [hpc] at hmem
        exact hc hmem
      rw [herase, ihrest hrest]
    · rw [if_neg hleaf]
      rw [if_neg hleaf] at hhead
      rw [ihes hhead, ihrest hrest]

/-! ## Claim C8 -/

/-- C8: `removeLanguage` is the identity on the whole session state when at
most one language remains (the guard returns before doing anything), and —
on a catalog whose tree satisfies the data model's shape — also when the
code to remove is not active (the filter and the per-leaf deletions all
find nothing to change); and from any session whose language lists are
non-empty sets of distinct codes, no sequence of calls brings the language
list size below 1. -/
theorem C8_removeLanguage_guards :
    (∀ (st : EditorState) (c : String), st.data.languages.length ≤ 1 →
        removeLanguage st c = st) ∧
    (∀ (st : EditorState) (c : String), c ∉ st.data.languages →
        validEntries st.data.languages st.data.translations = true →
        removeLanguage st c = st) ∧
    (∀ (st : EditorState) (ops : List Op), LangsOK st →
        1 ≤ (applyOps st ops).data.languages.length) := by
  refine ⟨?_, ?_, ?_⟩
  · intro st c h
    simp [removeLanguage, h]
  · intro st c hc hval
    simp only [removeLanguage]
    split
    · rfl
    · have ht := removeLangEntries_id _ c hc st.data.translations hval
      have hf : st.data.languages.filter (fun l => l != c) = st.data.languages :=
        List.filter_eq_self.mpr (fun a ha => by
          simp only [bne_iff_ne, ne_eq, decide_eq_true_eq]
          intro hac
          rw [hac] at ha
          exact hc ha)
      rw [ht, hf]
  · intro st ops h
    have : LangsOK (applyOps st ops) := by
      induction ops generalizing st with
      | nil => exact h
      | cons op ops ih => exact ih _ (langsOK_step st op h)
    have hne := this.1
    cases hlen : (applyOps st ops).data.languages with
    | nil => exact absurd hlen hne
    | cons a as => simp [hlen]

/-- C8 witness: the one-language guard on a single-language session, the
inactive-code no-op on the demo session, and the size floor after a
sequence that adds and removes languages, saves and discards. -/
theorem C8_removeLanguage_guards_witness :
    removeLanguage oneLangState "en" = oneLangState ∧
    removeLanguage demoState "fr" = demoState ∧
    1 ≤ (applyOps demoState
      [.addLang "fr", .removeLang "de", .removeLang "en", .save,
       .discard]).data.languages.length :=
  ⟨C8_removeLanguage_guards.1 oneLangState "en" (by decide),
   C8_removeLanguage_guards.2.1 demoState "fr" (by decide)
     (by simp [validEntries, leafCheck, demoState, demoCatalog, demoTree]),
   C8_removeLanguage_guards.2.2 demoState _
     (by refine ⟨by decide, by decide, by decide, by decide⟩)⟩

-- C6 machinery trial
theorem contains_eq_mem (L : List String) (a : String) : L.contains a = true ↔ a ∈ L := by
  simp [List.contains_iff_exists_mem_beq]

theorem leafCheck_false_iff (L : List String) (es : JEntries) :
    leafCheck L es = false ↔ ∀ p ∈ es, p.1 ∉ L := by
  simp only [leafCheck]
  rw [← Bool.not_eq_true, List.any_eq_true]
  constructor
  · intro h p hp hmem
    exact h ⟨p, hp, (contains_eq_mem L p.1).mpr hmem⟩
  · intro h hex
    obtain ⟨p, hp, hc⟩ := hex
    exact h p hp ((contains_eq_mem L p.1).mp hc)

theorem setKey_append (es : JEntries) (c : String) (v : JNode) (hc : ∀ p ∈ es, p.1 ≠ c) :
    setKey es c v = es ++ [(c, v)] := by
  simp only [setKey]
  rw [if_neg]
  simp only [List.any_eq_true, not_exists, not_and]
  intro p hp
  simp [hc p hp]

theorem eraseKey_append (es : JEntries) (c : String) (v : JNode) (hc : ∀ p ∈ es, p.1 ≠ c) :
    eraseKey (es ++ [(c, v)]) c = es := by
  simp only [eraseKey, List.filter_append]
  rw [List.filter_eq_self.mpr, List.filter_cons]
  · simp
  · intro p hp
    simp [hc p hp]

theorem roundtrip_entries (L : List String) (c : String) (hcL : c ∉ L) :
    ∀ es, validEntries L es = true → nsAvoidKey L c es = true →
      removeLangEntries (L ++ [c]) c (addLangEntries L c es) = es ∧
      keysOf (addLangEntries L c es) = keysOf es := by
  apply jentries_ind (P := fun es => validEntries L es = true → nsAvoidKey L c es = true →
      removeLangEntries (L ++ [c]) c (addLangEntries L c es) = es ∧
      keysOf (addLangEntries L c es) = keysOf es)
  · intro _ _
    simp [addLangEntries, removeLangEntries]
  · intro k s rest _ hval _
    simp [validEntries] at hval
  · intro k ces rest ihces ihrest hval havoid
    simp only [validEntries, Bool.and_eq_true] at hval
    obtain ⟨hhead, hrest⟩ := hval
    simp only [nsAvoidKey, Bool.and_eq_true] at havoid
    obtain ⟨hahead, harest⟩ := havoid
    by_cases hleaf : leafCheck L ces = true
    · rw [if_pos hleaf] at hhead
      have hkeys : ∀ p ∈ ces, p.1 ≠ c := by
        intro p hp
        have hall := List.all_eq_true.mp hhead p hp
        simp only [Bool.and_eq_true] at hall
        have hmem := (contains_eq_mem L p.1).mp hall.2
        intro hpc
        rw [hpc] at hmem
        exact hcL hmem
      simp only [addLangEntries, if_pos hleaf]
      rw [setKey_append ces c _ hkeys]
      simp only [removeLangEntries]
      have hleaf2 : leafCheck (L ++ [c]) (ces ++ [(c, JNode.str "")]) = true := by
        simp only [leafCheck, List.any_eq_true]
        refine ⟨(c, .str ""), by simp, ?_⟩
        exact (contains_eq_mem _ _).mpr (by simp)
      rw [if_pos hleaf2]
      rw [eraseKey_append ces c _ hkeys]
      obtain ⟨h1, h2⟩ := ihrest hrest harest
      exact ⟨by rw [h1], by simp [keysOf] at h2 ⊢; exact h2⟩
    · have hleafF : leafCheck L ces = false := Bool.of_not_eq_true hleaf
      rw [if_neg hleaf] at hhead
      rw [if_neg hleaf] at hahead
      rw [Bool.and_eq_true] at hahead
      obtain ⟨hnoc, hav⟩ := hahead
      obtain ⟨hrt, hkeysEq⟩ := ihces hhead hav
      simp only [addLangEntries, if_neg hleaf]
      simp only [removeLangEntries]
      have hleaf2 : leafCheck (L ++ [c]) (addLangEntries L c ces) = false := by
        rw [leafCheck_false_iff]
        intro p hp hmem
        have hp1 : p.1 ∈ keysOf ces := by
          rw [← hkeysEq]
          exact List.mem_map_of_mem _ hp
        obtain ⟨q, hq, hq1⟩ := List.mem_map.mp hp1
        rcases List.mem_append.mp hmem with hL | hc
        · have := (leafCheck_false_iff L ces).mp hleafF q hq
          rw [hq1] at this
          exact this hL
        · simp only [List.mem_singleton] at hc
          simp only [Bool.not_eq_true', List.any_eq_false] at hnoc
          have := hnoc q hq
          rw [hq1] at this
          simp [hc] at this
      rw [if_neg (by rw [hleaf2]; exact Bool.false_ne_true)]
      obtain ⟨h1, h2⟩ := ihrest hrest harest
      refine ⟨?_, ?_⟩
      · rw [hrt, h1]
      · simp only [keysOf, List.map_cons]
        simp only [keysOf] at h2
        rw [h2]

/-! ## Claim C6 -/

/-- C6 counterexample: on a catalog that is valid for the data model (the
namespace named `fr` does not collide with any *active* code), adding and
then removing the language `fr` deletes the whole `x.fr` subtree: after
`addLanguage("fr")` the namespace `x` has the key `fr` and is classified as
a leaf by the remove pass, whose rest-destructuring drops the subtree. -/
theorem C6_counterexample :
    (removeLanguage (addLanguage c6State "fr") "fr").data.translations ≠
      c6State.data.translations := by
  simp [addLanguage, removeLanguage, addLangEntries, removeLangEntries, setKey, eraseKey,
    leafCheck, c6State, c6Catalog]

/-- C6 (amended): for every loaded session whose catalog satisfies the data
model's shape, with at least one active language, and every inactive code
`c` that is not a key of any namespace-classified node, applying
`addLanguage(c)` and then `removeLanguage(c)` restores the session exactly
— in particular the translation tree, key order and remaining values. -/
theorem C6_add_remove_roundtrip (st : EditorState) (c : String)
    (hc : c ∉ st.data.languages) (hne : st.data.languages ≠ [])
    (hval : validEntries st.data.languages st.data.translations = true)
    (havoid : nsAvoidKey st.data.languages c st.data.translations = true) :
    removeLanguage (addLanguage st c) c = st := by
  simp only [addLanguage]
  rw [if_neg (by
    intro hcon
    exact hc ((contains_eq_mem _ _).mp hcon))]
  simp only [removeLanguage]
  rw [if_neg (by
    simp only [List.length_append, List.length_singleton]
    have : 0 < st.data.languages.length := List.length_pos.mpr hne
    omega)]
  have h1 : (st.data.languages ++ [c]).filter (fun l => l != c) = st.data.languages := by
    rw [List.filter_append]
    rw [List.filter_eq_self.mpr (fun a ha => by
      simp only [bne_iff_ne, ne_eq, decide_eq_true_eq]
      intro hac
      rw [hac] at ha
      exact hc ha)]
    simp
  have h2 := (roundtrip_entries st.data.languages c hc st.data.translations hval havoid).1
  rw [h1, h2]

/-- C6 witness: the round-trip holds concretely for `fr` on the loaded demo
session. -/
theorem C6_add_remove_roundtrip_witness :
    removeLanguage (addLanguage demoState "fr") "fr" = demoState :=
  C6_add_remove_roundtrip demoState "fr" (by decide) (by decide)
    (by simp [validEntries, leafCheck, demoState, demoCatalog, demoTree])
    (by simp [nsAvoidKey, leafCheck, demoState, demoCatalog, demoTree])

/-! ## Claim C9 -/

theorem lookupEntry_mem (es : JEntries) (k : String) (v : JNode)
    (h : lookupEntry es k = some v) : (k, v) ∈ es := by
  simp only [lookupEntry, Option.map_eq_some'] at h
  obtain ⟨p, hfind, hp2⟩ := h
  have hmem := List.mem_of_find?_eq_some hfind
  have hpred := List.find?_some hfind
  rw [beq_iff_eq] at hpred
  have : p = (k, v) := by
    cases p
    simp only [Prod.mk.injEq]
    exact ⟨hpred, hp2⟩
  rw [← this]
  exact hmem

theorem export_eq_spec (L : List String) (lang : String) :
    ∀ es, validEntries L es = true →
      extractLangEntries L lang es = specExportEntries L lang es := by
  apply jentries_ind (P := fun es => validEntries L es = true →
      extractLangEntries L lang es = specExportEntries L lang es)
  · intro _
    simp [extractLangEntries, specExportEntries]
  · intro k s rest _ hval
    simp [validEntries] at hval
  · intro k ces rest ihces ihrest hval
    simp only [validEntries, Bool.and_eq_true] at hval
    obtain ⟨hhead, hrest⟩ := hval
    by_cases hleaf : leafCheck L ces = true
    · rw [if_pos hleaf] at hhead
      simp only [extractLangEntries, specExportEntries, if_pos hleaf]
      rw [ihrest hrest]
      congr 1
      simp only [Prod.mk.injEq, true_and]
      cases hlook : lookupEntry ces lang with
      | none => simp [specLeafValue, hlook]
      | some v =>
          have hmem := lookupEntry_mem ces lang v hlook
          have := List.all_eq_true.mp hhead _ hmem
          simp only [Bool.and_eq_true] at this
          cases v with
          | str s => simp [specLeafValue, hlook]
          | obj o => exact absurd this.1 (by simp)
    · rw [if_neg hleaf] at hhead
      simp only [extractLangEntries, specExportEntries, if_neg hleaf]
      rw [ihces hhead, ihrest hrest]

/-- C9 counterexample: on a catalog whose active list contains the empty
string, `exportToJson("")` takes the falsy branch and returns the full
multi-language tree instead of the leaf-replaced single-language
structure the claim describes for every active language. -/
theorem C9_counterexample :
    exportToJson c9State (some "") ≠
      specExportEntries c9State.data.languages "" c9State.data.translations ∧
    "" ∈ c9State.data.languages := by
  constructor
  · simp [exportToJson, specExportEntries, specLeafValue, leafCheck, lookupEntry,
      c9State, c9Catalog]
  · decide

/-- C9 (amended): for every catalog satisfying the data model's shape and
every active language other than the empty string (which the export's
truthiness test conflates with "no argument"), `exportToJson(l)` returns
exactly the structure the spec describes: identical namespace nesting and
key ordering, every leaf replaced by its string value for `l`, the empty
string where the leaf has no entry for `l`. -/
theorem C9_export_single_language (st : EditorState) (l : String)
    (_hl : l ∈ st.data.languages) (hne : l ≠ "")
    (hval : validEntries st.data.languages st.data.translations = true) :
    exportToJson st (some l) =
      specExportEntries st.data.languages l st.data.translations := by
  simp only [exportToJson]
  rw [if_neg (by simpa using hne)]
  exact export_eq_spec st.data.languages l st.data.translations hval

/-- C9 witness: the single-language export agrees with the spec's
description concretely for `en` on the demo session. -/
theorem C9_export_single_language_witness :
    exportToJson demoState (some "en") =
      specExportEntries demoState.data.languages "en" demoState.data.translations :=
  C9_export_single_language demoState "en" (by decide) (by decide)
    (by simp [validEntries, leafCheck, demoState, demoCatalog, demoTree])

/-! ## Claim C7 -/

-- C7 machinery
theorem filledCount_ok (ves : JEntries) (hstr : ∀ p ∈ ves, ∃ s, p.2 = JNode.str s) :
    ∀ L : List String, filledCount L ves =
      .ok ((L.filter (fun l =>
        match lookupEntry ves l with
        | some (.str s) => s.trim != ""
        | _ => false)).length) := by
  intro L
  induction L with
  | nil => simp [filledCount]
  | cons l ls ih =>
      simp only [filledCount, List.filter_cons]
      cases hlook : lookupEntry ves l with
      | none => simp [hlook, ih]
      | some v =>
          have hmem := lookupEntry_mem ves l v hlook
          obtain ⟨s, hs⟩ := hstr _ hmem
          subst hs
          rw [ih]
          by_cases htrim : s.trim = ""
          · simp [htrim, Except.map]
          · simp [htrim, Except.map]

theorem buildEntries_ok (L : List String) :
    ∀ es, validEntries L es = true → ∀ path depth,
      ∃ ts, buildEntries L es path depth = .ok ts ∧ specForestOK L ts = true := by
  apply jentries_ind (P := fun es => validEntries L es = true → ∀ path depth,
      ∃ ts, buildEntries L es path depth = .ok ts ∧ specForestOK L ts = true)
  · intro _ path depth
    exact ⟨[], by simp [buildEntries], by simp [specForestOK]⟩
  · intro k s rest _ hval
    simp [validEntries] at hval
  · intro k ces rest ihces ihrest hval path depth
    simp only [validEntries, Bool.and_eq_true] at hval
    obtain ⟨hhead, hrest⟩ := hval
    obtain ⟨rts, hrok, hrspec⟩ := ihrest hrest path depth
    by_cases hleaf : leafCheck L ces = true
    · rw [if_pos hleaf] at hhead
      have hstr : ∀ p ∈ ces, ∃ s, p.2 = JNode.str s := by
        intro p hp
        have := List.all_eq_true.mp hhead p hp
        simp only [Bool.and_eq_true] at this
        cases hv : p.2 with
        | str s => exact ⟨s, rfl⟩
        | obj o => rw [hv] at this; exact absurd this.1 (by simp)
      refine ⟨.mk k (if path == "" then k else path ++ "." ++ k) depth true none
          (some (.obj ces))
          ((((L.filter (fun l =>
            match lookupEntry ces l with
            | some (.str s) => s.trim != ""
            | _ => false)).length : ℚ)) / (L.length : ℚ) * 100) :: rts, ?_, ?_⟩
      · simp [buildEntries, if_pos hleaf, filledCount_ok ces hstr L, hrok, Except.map]
      · simp [specForestOK, specLeafCompleteness, hrspec]
    · rw [if_neg hleaf] at hhead
      obtain ⟨cts, hcok, hcspec⟩ := ihces hhead (if path = "" then k else path ++ "." ++ k)
        (depth + 1)
      refine ⟨.mk k (if path = "" then k else path ++ "." ++ k) depth false (some cts) none
          (nsCompleteness cts) :: rts, ?_, ?_⟩
      · simp [buildEntries, if_neg hleaf, hcok, hrok, Except.map]
      · simp only [specForestOK, Bool.and_eq_true, decide_eq_true_eq]
        refine ⟨⟨?_, hcspec⟩, hrspec⟩
        simp only [nsCompleteness, specNsMean]
        by_cases hlen : cts.length = 0
        · simp [hlen]
        · have hpos : cts.length > 0 := Nat.pos_of_ne_zero hlen
          simp [hlen, hpos]

/-- C7: on every catalog satisfying the data model's shape (with a
non-empty language list, so the divisions are meaningful), `buildTree`
succeeds and annotates every leaf with
(non-blank-after-trim active languages) ÷ (active language count) × 100
recomputed from that leaf's own value map, and every namespace with the
unweighted arithmetic mean of its direct children's completeness, an empty
namespace getting 100. -/
theorem C7_buildTree_completeness (st : EditorState)
    (hval : validEntries st.data.languages st.data.translations = true)
    (_hL : st.data.languages ≠ []) :
    ∃ ts, buildTree st = .ok ts ∧ specForestOK st.data.languages ts = true := by
  simpa [buildTree] using
    buildEntries_ok st.data.languages st.data.translations hval "" 0

/-- C7 witness: the completeness annotations check out concretely on the
demo session (where `forgot_password` is half-translated). -/
theorem C7_buildTree_completeness_witness :
    ∃ ts, buildTree demoState = .ok ts ∧
      specForestOK demoState.data.languages ts = true :=
  C7_buildTree_completeness demoState
    (by simp [validEntries, leafCheck, demoState, demoCatalog, demoTree]) (by decide)

/-! ## Claims C2 and C10: `renameKey` -/

-- C2/C10 machinery
theorem getNode_none (ys : List String) : getNode none ys = none := by
  cases ys <;> simp [getNode]

theorem getNode_append (xs : List String) :
    ∀ (cur : Option JNode) (ys : List String),
      getNode cur (xs ++ ys) = getNode (getNode cur xs) ys := by
  induction xs with
  | nil => intro cur ys; simp [getNode]
  | cons a xs ih =>
      intro cur ys
      cases cur with
      | none => simp [getNode, getNode_none]
      | some n => simp only [List.cons_append, getNode]; exact ih _ ys

theorem getNode_str (q : List String) :
    ∀ (s : String) (m : JNode), getNode (some (.str s)) q = some m → ∃ t, m = .str t := by
  induction q with
  | nil => intro s m h; simp [getNode] at h; exact ⟨s, h.symm⟩
  | cons a q ih =>
      intro s m h
      simp only [getNode, JNode.get] at h
      cases hg : strGet s a with
      | none => rw [hg, getNode_none] at h; exact Option.noConfusion h
      | some c =>
          rw [hg] at h
          simp only [strGet] at hg
          split at hg
          · split at hg
            · simp only [Option.map_eq_some'] at hg
              obtain ⟨ch, _, rfl⟩ := hg
              exact ih _ m h
            · exact Option.noConfusion hg
          · exact Option.noConfusion hg

theorem lookup_map_overwrite_self (a : String) (w : JNode) :
    ∀ es : JEntries, es.any (fun p => p.1 == a) = true →
      lookupEntry (es.map (fun p => if p.1 == a then (a, w) else p)) a = some w := by
  intro es
  induction es with
  | nil => simp
  | cons p ps ih =>
      intro hany
      by_cases hp : (p.1 == a) = true
      · simp only [List.map_cons, if_pos hp, lookupEntry, List.find?_cons]
        simp
      · simp only [List.any_cons, hp, Bool.false_or] at hany
        simp only [List.map_cons, if_neg hp]
        simp only [lookupEntry, List.find?_cons, Bool.of_not_eq_true hp]
        exact ih hany

theorem lookup_map_overwrite_ne (a b : String) (w : JNode) (hba : b ≠ a) :
    ∀ es : JEntries,
      lookupEntry (es.map (fun p => if p.1 == a then (a, w) else p)) b = lookupEntry es b := by
  intro es
  induction es with
  | nil => simp
  | cons p ps ih =>
      by_cases hp : (p.1 == a) = true
      · have hpa : p.1 = a := by simpa using hp
        have hab : (a == b) = false := by
          simp only [beq_eq_false_iff_ne, ne_eq]
          exact fun h => hba h.symm
        have hpb : (p.1 == b) = false := by rw [hpa]; exact hab
        simp only [List.map_cons, if_pos hp, lookupEntry, List.find?_cons, hab, hpb]
        exact ih
      · simp only [List.map_cons, if_neg hp, lookupEntry, List.find?_cons]
        by_cases hpb : (p.1 == b) = true
        · simp [hpb]
        · simp only [Bool.of_not_eq_true hpb]
          exact ih

theorem lookup_setKey_self (es : JEntries) (a : String) (w : JNode) :
    lookupEntry (setKey es a w) a = some w := by
  simp only [setKey]
  split
  · next hany => exact lookup_map_overwrite_self a w es hany
  · next hany =>
      have hnone : es.find? (fun p => p.1 == a) = none := by
        rw [List.find?_eq_none]
        intro p hp
        simp only [List.any_eq_true, not_exists, not_and] at hany
        exact fun hcon => hany p hp hcon
      simp [lookupEntry, List.find?_append, hnone]

theorem lookup_setKey_ne (es : JEntries) (a b : String) (w : JNode) (hba : b ≠ a) :
    lookupEntry (setKey es a w) b = lookupEntry es b := by
  simp only [setKey]
  split
  · exact lookup_map_overwrite_ne a b w hba es
  · have hab : ((a, w).1 == b) = false := by
      simp only [beq_eq_false_iff_ne, ne_eq]
      exact fun h => hba h.symm
    simp [lookupEntry, List.find?_append, List.find?_cons, hab]

theorem lookup_eraseKey_self (es : JEntries) (k : String) :
    lookupEntry (eraseKey es k) k = none := by
  simp only [lookupEntry, eraseKey, Option.map_eq_none']
  rw [List.find?_eq_none]
  intro p hp
  have := (List.mem_filter.mp hp).2
  simp only [bne_iff_ne, ne_eq, decide_eq_true_eq] at this
  simpa using this

theorem lookup_eraseKey_ne (es : JEntries) (k j : String) (hjk : j ≠ k) :
    lookupEntry (eraseKey es k) j = lookupEntry es j := by
  induction es with
  | nil => simp [eraseKey]
  | cons p ps ih =>
      by_cases hp : (p.1 != k) = true
      · rw [show eraseKey (p :: ps) k = p :: eraseKey ps k from
          List.filter_cons_of_pos hp]
        simp only [lookupEntry, List.find?_cons]
        by_cases hpj : (p.1 == j) = true
        · simp [hpj]
        · simp only [Bool.of_not_eq_true hpj]
          exact ih
      · have hpk : p.1 = k := by simpa using hp
        have hpj : (p.1 == j) = false := by
          rw [hpk]
          simp only [beq_eq_false_iff_ne, ne_eq]
          exact fun h => hjk h.symm
        rw [show eraseKey (p :: ps) k = eraseKey ps k from
          List.filter_cons_of_neg (by simpa using hp)]
        rw [ih]
        simp only [lookupEntry, List.find?_cons, hpj]

theorem strGet_shape (s a : String) (c : JNode) (hg : strGet s a = some c) :
    ∃ t, c = JNode.str t := by
  simp only [strGet] at hg
  split at hg
  · split at hg
    · simp only [Option.map_eq_some'] at hg
      obtain ⟨ch, _, rfl⟩ := hg
      exact ⟨_, rfl⟩
    · exact Option.noConfusion hg
  · exact Option.noConfusion hg

theorem rename_node_at (k n : String) :
    ∀ (q : List String) (nd : JNode) (pes : JEntries) (v : JNode),
      getNode (some nd) q = some (.obj pes) →
      lookupEntry pes k = some v →
      ∃ nd', renameTreeNode nd q k n = .ok nd' ∧
        getNode (some nd') q = some (.obj (eraseKey (setKey pes n v) k)) ∧
        ∀ r : List String, ¬(r <+: q) → ¬((q ++ [k]) <+: r) → ¬((q ++ [n]) <+: r) →
          getNode (some nd') r = getNode (some nd) r := by
  intro q
  induction q with
  | nil =>
      intro nd pes v hq hk
      simp only [getNode, Option.some.injEq] at hq
      subst hq
      refine ⟨.obj (eraseKey (setKey pes n v) k), ?_, by simp [getNode], ?_⟩
      · simp [renameTreeNode, hk]
      · intro r hr hk' hn'
        cases r with
        | nil => exact absurd List.nil_prefix hr
        | cons j r' =>
            have hjk : j ≠ k := by
              intro hj
              subst hj
              exact hk' (List.cons_prefix_cons.mpr ⟨rfl, List.nil_prefix⟩)
            have hjn : j ≠ n := by
              intro hj
              subst hj
              exact hn' (List.cons_prefix_cons.mpr ⟨rfl, List.nil_prefix⟩)
            simp only [getNode, JNode.get]
            rw [lookup_eraseKey_ne _ k j hjk, lookup_setKey_ne _ n j v hjn]
  | cons a q' ih =>
      intro nd pes v hq hk
      cases nd with
      | str s =>
          exfalso
          simp only [getNode, JNode.get] at hq
          cases hg : strGet s a with
          | none => rw [hg, getNode_none] at hq; exact Option.noConfusion hq
          | some c =>
              rw [hg] at hq
              obtain ⟨t, rfl⟩ := strGet_shape s a c hg
              obtain ⟨t2, ht2⟩ := getNode_str q' t _ hq
              exact JNode.noConfusion ht2
      | obj es =>
          simp only [getNode, JNode.get] at hq
          cases hl : lookupEntry es a with
          | none => rw [hl, getNode_none] at hq; exact Option.noConfusion hq
          | some child =>
              rw [hl] at hq
              obtain ⟨child', hok, hget, hpres⟩ := ih child pes v hq hk
              refine ⟨.obj (setKey es a child'), ?_, ?_, ?_⟩
              · simp [renameTreeNode, hl, hok, Except.map]
              · simp only [getNode, JNode.get, lookup_setKey_self]
                exact hget
              · intro r hr hk' hn'
                cases r with
                | nil => exact absurd List.nil_prefix hr
                | cons j r' =>
                    by_cases hja : j = a
                    · subst hja
                      simp only [getNode, JNode.get, lookup_setKey_self, hl]
                      apply hpres r'
                      · intro hc
                        exact hr (List.cons_prefix_cons.mpr ⟨rfl, hc⟩)
                      · intro hc
                        exact hk' (by
                          simpa only [List.cons_append] using
                            List.cons_prefix_cons.mpr (⟨rfl, hc⟩ : j = j ∧ _))
                      · intro hc
                        exact hn' (by
                          simpa only [List.cons_append] using
                            List.cons_prefix_cons.mpr (⟨rfl, hc⟩ : j = j ∧ _))
                    · simp only [getNode, JNode.get,
                        lookup_setKey_ne es a j child' hja]

theorem rename_node_obj (k n : String) (q : List String) (es : JEntries) :
    renameTreeNode (.obj es) q k n = (renameTreeEntries es q k n).map JNode.obj := by
  cases q with
  | nil =>
      simp only [renameTreeNode, renameTreeEntries]
      cases lookupEntry es k <;> simp [Except.map]
  | cons a q' =>
      simp only [renameTreeNode, renameTreeEntries]
      cases lookupEntry es a with
      | none => simp [Except.map]
      | some child =>
          simp only []
          cases renameTreeNode child q' k n <;> simp [Except.map]

theorem rename_entries_at (k n : String) (q : List String) (es pes : JEntries) (v : JNode)
    (hq : getNode (some (.obj es)) q = some (.obj pes))
    (hk : lookupEntry pes k = some v) :
    ∃ es', renameTreeEntries es q k n = .ok es' ∧
      getNode (some (.obj es')) q = some (.obj (eraseKey (setKey pes n v) k)) ∧
      ∀ r, ¬(r <+: q) → ¬((q ++ [k]) <+: r) → ¬((q ++ [n]) <+: r) →
        getNode (some (.obj es')) r = getNode (some (.obj es)) r := by
  obtain ⟨nd', hok, hget, hpres⟩ := rename_node_at k n q (.obj es) pes v hq hk
  rw [rename_node_obj] at hok
  cases hre : renameTreeEntries es q k n with
  | error e => rw [hre] at hok; exact Except.noConfusion hok
  | ok es' =>
      rw [hre] at hok
      simp only [Except.map, Except.ok.injEq] at hok
      subst hok
      exact ⟨es', rfl, hget, hpres⟩

theorem keysOf_of_lookup (es : JEntries) (k : String) (v : JNode)
    (h : lookupEntry es k = some v) : k ∈ keysOf es := by
  have := lookupEntry_mem es k v h
  exact List.mem_map_of_mem _ this

/-- C2 (amended): for every catalog whose tree has a node at path `q.k`
and every non-empty new key name `n` that is not an existing key of the
parent namespace (in particular `n ≠ k`), `renameKey(q.k, n)` succeeds and
yields a tree in which the identical subtree sits at `q.n`, the old path
`q.k` no longer resolves, every sibling key still maps to its old subtree,
and every path that diverges from the parent resolves exactly as before:
rename only relabels the final segment under the existing parent. -/
theorem C2_rename_preserves_values (st : EditorState) (oldPath n : String)
    (q : List String) (k : String) (pes : JEntries) (v : JNode)
    (hsplit : splitPath oldPath = q ++ [k])
    (hq : getNode (some (.obj st.data.translations)) q = some (.obj pes))
    (hk : lookupEntry pes k = some v)
    (hn : n ∉ keysOf pes) (_hne : n ≠ "") :
    ∃ st', renameKey st oldPath n = .ok st' ∧
      getNode (some (.obj st'.data.translations)) (q ++ [n]) = some v ∧
      getNode (some (.obj st'.data.translations)) (q ++ [k]) = none ∧
      getNode (some (.obj st'.data.translations)) q =
        some (.obj (eraseKey (setKey pes n v) k)) ∧
      (∀ j, j ≠ k → j ≠ n →
        lookupEntry (eraseKey (setKey pes n v) k) j = lookupEntry pes j) ∧
      (∀ r, ¬(r <+: q) → ¬((q ++ [k]) <+: r) → ¬((q ++ [n]) <+: r) →
        getNode (some (.obj st'.data.translations)) r =
          getNode (some (.obj st.data.translations)) r) := by
  have hnk : n ≠ k := fun h => hn (h ▸ keysOf_of_lookup pes k v hk)
  obtain ⟨es', hok, hget, hpres⟩ := rename_entries_at k n q st.data.translations pes v hq hk
  refine ⟨{ st with
              data := { st.data with translations := es' }
              unsavedChanges :=
                st.unsavedChanges ++ [⟨oldPath, renameSentinel, .str k, n⟩] },
    ?_, ?_, ?_, hget, ?_, hpres⟩
  · simp only [renameKey, hsplit, List.dropLast_concat, List.getLastD_concat, hok]
  · rw [getNode_append, hget]
    simp only [getNode, JNode.get]
    rw [lookup_eraseKey_ne _ k n hnk, lookup_setKey_self]
  · rw [getNode_append, hget]
    simp only [getNode, JNode.get]
    rw [lookup_eraseKey_self]
  · intro j hjk hjn
    rw [lookup_eraseKey_ne _ k j hjk, lookup_setKey_ne _ n j v hjn]

/-- C10 (amended): for every catalog whose tree has a node at path `q.k`
and every new key name `n` that is not an existing key of the parent
(hence in particular `n ≠ k`), renaming deletes `k` in place and appends
the renamed entry at the last position of the parent's key insertion
order, all other siblings keeping their relative order. -/
theorem C10_rename_appends_last (st : EditorState) (oldPath n : String)
    (q : List String) (k : String) (pes : JEntries) (v : JNode)
    (hsplit : splitPath oldPath = q ++ [k])
    (hq : getNode (some (.obj st.data.translations)) q = some (.obj pes))
    (hk : lookupEntry pes k = some v)
    (hn : n ∉ keysOf pes) :
    ∃ st', renameKey st oldPath n = .ok st' ∧
      getNode (some (.obj st'.data.translations)) q =
        some (.obj (eraseKey pes k ++ [(n, v)])) := by
  have hnk : n ≠ k := fun h => hn (h ▸ keysOf_of_lookup pes k v hk)
  obtain ⟨es', hok, hget, _⟩ := rename_entries_at k n q st.data.translations pes v hq hk
  have hkeys : ∀ p ∈ pes, p.1 ≠ n := fun p hp h => hn (h ▸ List.mem_map_of_mem _ hp)
  have h1 : setKey pes n v = pes ++ [(n, v)] := setKey_append pes n v hkeys
  have h2 : eraseKey (pes ++ [(n, v)]) k = eraseKey pes k ++ [(n, v)] := by
    simp only [eraseKey, List.filter_append, List.filter_cons, List.filter_nil]
    have : ((n, v).1 != k) = true := by simpa using hnk
    simp [this]
  refine ⟨{ st with
              data := { st.data with translations := es' }
              unsavedChanges :=
                st.unsavedChanges ++ [⟨oldPath, renameSentinel, .str k, n⟩] },
    ?_, ?_⟩
  · simp only [renameKey, hsplit, List.dropLast_concat, List.getLastD_concat, hok]
  · rw [hget, h1, h2]

/-- C2 counterexample: the claim quantifies over every non-empty new key
name, including `n = k`.  Renaming `auth.login.title` to `title` executes
`parent[n] = parent[k]; delete parent[k]` with `n = k`, deleting the node
outright: afterwards nothing resolves at `q.n` (= `q.k`), contradicting
the claimed presence of a node with identical values at `q.n`. -/
theorem C2_counterexample :
    ∃ st', renameKey demoState "auth.login.title" "title" = .ok st' ∧
      getNode (some (.obj st'.data.translations)) ["auth", "login", "title"] = none :=
  ⟨_, rfl, rfl⟩

/-- C2 witness: renaming the demo leaf `auth.login.title` to `heading`
moves its value map intact and retires the old path. -/
theorem C2_rename_preserves_values_witness :
    ∃ st', renameKey demoState "auth.login.title" "heading" = .ok st' ∧
      getNode (some (.obj st'.data.translations)) ["auth", "login", "heading"] =
        some (.obj [("en", .str "Login"), ("de", .str "Anmelden")]) ∧
      getNode (some (.obj st'.data.translations)) ["auth", "login", "title"] = none := by
  obtain ⟨st', h1, h2, h3, _, _, _⟩ :=
    C2_rename_preserves_values demoState "auth.login.title" "heading"
      ["auth", "login"] "title"
      [("title", .obj [("en", .str "Login"), ("de", .str "Anmelden")]),
       ("subtitle", .obj [("en", .str "Welcome back"), ("de", .str "Willkommen")]),
       ("forgot_password", .obj [("en", .str "Forgot password?"), ("de", .str "")])]
      (.obj [("en", .str "Login"), ("de", .str "Anmelden")])
      rfl rfl rfl (by decide) (by decide)
  exact ⟨st', h1, h2, h3⟩

/-- C10 counterexample: the claim quantifies over every `n ≠ k`, including
an existing sibling.  Renaming `ns.b` to the sibling name `c` overwrites
`c` in place — the renamed entry ends up at `c`'s old position, first
rather than last. -/
theorem C10_counterexample :
    (renameKey c10State "ns.b" "c").map
        (fun s => getNode (some (.obj s.data.translations)) ["ns"]) =
      .ok (some (.obj [("c", .obj [("en", .str "1")]), ("d", .obj [("en", .str "3")])])) ∧
    ([("c", JNode.obj [("en", JNode.str "1")]),
      ("d", JNode.obj [("en", JNode.str "3")])].getLast? ≠
        some ("c", JNode.obj [("en", JNode.str "1")])) := by
  refine ⟨rfl, ?_⟩
  simp

/-- C10 witness: renaming `ns.b` to the fresh name `e` removes `b` and
appends the renamed entry after `c` and `d`. -/
theorem C10_rename_appends_last_witness :
    ∃ st', renameKey c10State "ns.b" "e" = .ok st' ∧
      getNode (some (.obj st'.data.translations)) ["ns"] =
        some (.obj [("c", .obj [("en", .str "2")]), ("d", .obj [("en", .str "3")]),
                    ("e", .obj [("en", .str "1")])]) := by
  obtain ⟨st', h1, h2⟩ := C10_rename_appends_last c10State "ns.b" "e" ["ns"] "b"
    [("b", .obj [("en", .str "1")]), ("c", .obj [("en", .str "2")]),
     ("d", .obj [("en", .str "3")])]
    (.obj [("en", .str "1")])
    rfl rfl rfl (by decide)
  exact ⟨st', h1, h2⟩

/-! ## Claim C5: the leaf invariant -/

-- C5 machinery: bridging lemmas
theorem invEntries_iff_all (L : List String) :
    ∀ es : JEntries, invEntries L es = es.all (fun p => invNodeB L p.2) := by
  intro es
  induction es with
  | nil => simp [invEntries]
  | cons p ps ih =>
      cases p with
      | mk k v =>
          cases v with
          | str s => simp [invEntries, invNodeB, List.all_cons, ih]
          | obj ces => simp [invEntries, invNodeB, List.all_cons, ih]

theorem keysOf_setKey (es : JEntries) (k : String) (w : JNode) :
    keysOf (setKey es k w) =
      if es.any (fun p => p.1 == k) then keysOf es else keysOf es ++ [k] := by
  simp only [setKey]
  split
  · simp only [keysOf, List.map_map]
    apply List.map_congr_left
    intro p _
    simp only [Function.comp_apply]
    by_cases hp : (p.1 == k) = true
    · have hpk : p.1 = k := by simpa using hp
      rw [if_pos hp]
      exact hpk.symm
    · rw [if_neg hp]
  · simp [keysOf]

theorem mem_keysOf_setKey (es : JEntries) (k : String) (w : JNode) :
    k ∈ keysOf (setKey es k w) := by
  rw [keysOf_setKey]
  split
  · next h =>
      obtain ⟨p, hp, hpk⟩ := List.any_eq_true.mp h
      have : p.1 = k := by simpa using hpk
      rw [← this]
      exact List.mem_map_of_mem _ hp
  · simp

theorem keysOf_setKey_subset (es : JEntries) (k : String) (w : JNode) :
    ∀ a ∈ keysOf (setKey es k w), a ∈ keysOf es ∨ a = k := by
  intro a ha
  rw [keysOf_setKey] at ha
  split at ha
  · exact Or.inl ha
  · rcases List.mem_append.mp ha with h | h
    · exact Or.inl h
    · exact Or.inr (by simpa using h)

theorem all_setKey (es : JEntries) (k : String) (w : JNode) (P : JNode → Bool)
    (hall : es.all (fun p => P p.2) = true) (hw : P w = true) :
    (setKey es k w).all (fun p => P p.2) = true := by
  simp only [setKey]
  split
  · rw [List.all_eq_true] at hall ⊢
    intro p hp
    obtain ⟨q, hq, hqp⟩ := List.mem_map.mp hp
    by_cases hqk : (q.1 == k) = true
    · rw [if_pos hqk] at hqp
      rw [← hqp]
      exact hw
    · rw [if_neg hqk] at hqp
      rw [← hqp]
      exact hall q hq
  · rw [List.all_eq_true] at hall ⊢
    intro p hp
    rcases List.mem_append.mp hp with h | h
    · exact hall p h
    · simp only [List.mem_singleton] at h
      rw [h]
      exact hw

theorem all_eraseKey (es : JEntries) (k : String) (P : JNode → Bool)
    (hall : es.all (fun p => P p.2) = true) :
    (eraseKey es k).all (fun p => P p.2) = true := by
  rw [List.all_eq_true] at hall ⊢
  intro p hp
  exact hall p (List.mem_filter.mp hp).1

theorem keysOf_eraseKey_subset (es : JEntries) (k : String) :
    ∀ a ∈ keysOf (eraseKey es k), a ∈ keysOf es := by
  intro a ha
  obtain ⟨p, hp, hpa⟩ := List.mem_map.mp ha
  rw [← hpa]
  exact List.mem_map_of_mem _ (List.mem_filter.mp hp).1

theorem leafCheck_true_iff (L : List String) (es : JEntries) :
    leafCheck L es = true ↔ ∃ p ∈ es, p.1 ∈ L := by
  simp only [leafCheck, List.any_eq_true]
  constructor
  · rintro ⟨p, hp, hc⟩
    exact ⟨p, hp, (contains_eq_mem L p.1).mp hc⟩
  · rintro ⟨p, hp, hc⟩
    exact ⟨p, hp, (contains_eq_mem L p.1).mpr hc⟩

theorem keysOf_addLang_subset (L : List String) (c : String) :
    ∀ es : JEntries, ∀ a ∈ keysOf (addLangEntries L c es), a ∈ keysOf es := by
  apply jentries_ind (P := fun es => ∀ a ∈ keysOf (addLangEntries L c es), a ∈ keysOf es)
  · simp [addLangEntries]
  · intro k s rest ih a ha
    simp only [addLangEntries] at ha
    exact List.mem_cons_of_mem _ (ih a ha)
  · intro k ces rest _ ih a ha
    simp only [addLangEntries] at ha
    by_cases hleaf : leafCheck L ces = true
    · rw [if_pos hleaf] at ha
      simp only [keysOf, List.map_cons] at ha ⊢
      rcases List.mem_cons.mp ha with h | h
      · simp [h]
      · exact List.mem_cons_of_mem _ (ih a h)
    · rw [if_neg hleaf] at ha
      simp only [keysOf, List.map_cons] at ha ⊢
      rcases List.mem_cons.mp ha with h | h
      · simp [h]
      · exact List.mem_cons_of_mem _ (ih a h)

theorem keysOf_removeLang_subset (L : List String) (c : String) :
    ∀ es : JEntries, ∀ a ∈ keysOf (removeLangEntries L c es), a ∈ keysOf es := by
  apply jentries_ind (P := fun es => ∀ a ∈ keysOf (removeLangEntries L c es), a ∈ keysOf es)
  · simp [removeLangEntries]
  · intro k s rest ih a ha
    simp only [removeLangEntries] at ha
    exact List.mem_cons_of_mem _ (ih a ha)
  · intro k ces rest _ ih a ha
    simp only [removeLangEntries] at ha
    by_cases hleaf : leafCheck L ces = true
    · rw [if_pos hleaf] at ha
      simp only [keysOf, List.map_cons] at ha ⊢
      rcases List.mem_cons.mp ha with h | h
      · simp [h]
      · exact List.mem_cons_of_mem _ (ih a h)
    · rw [if_neg hleaf] at ha
      simp only [keysOf, List.map_cons] at ha ⊢
      rcases List.mem_cons.mp ha with h | h
      · simp [h]
      · exact List.mem_cons_of_mem _ (ih a h)


theorem lookup_some_any (es : JEntries) (k : String) (v : JNode)
    (h : lookupEntry es k = some v) : es.any (fun p => p.1 == k) = true := by
  have hmem := lookupEntry_mem es k v h
  exact List.any_eq_true.mpr ⟨(k, v), hmem, by simp⟩

theorem leafCheck_keys (L : List String) : ∀ es : JEntries,
    leafCheck L es = (keysOf es).any (fun a => L.contains a)
  | [] => rfl
  | p :: ps => by
      simp only [leafCheck, keysOf, List.map_cons, List.any_cons]
      have hrec := leafCheck_keys L ps
      simp only [leafCheck, keysOf] at hrec
      rw [hrec]

theorem leafCheck_setKey_mem (L : List String) (es : JEntries) (k : String) (v w : JNode)
    (h : lookupEntry es k = some v) :
    leafCheck L (setKey es k w) = leafCheck L es := by
  rw [leafCheck_keys L (setKey es k w), leafCheck_keys L es, keysOf_setKey,
    if_pos (lookup_some_any es k v h)]

theorem all_keys_setKey (es : JEntries) (k : String) (w : JNode) (Q : String → Bool)
    (hall : es.all (fun p => Q p.1) = true) (hk : Q k = true) :
    (setKey es k w).all (fun p => Q p.1) = true := by
  simp only [setKey]
  split
  · rw [List.all_eq_true] at hall ⊢
    intro p hp
    obtain ⟨q, hq, hqp⟩ := List.mem_map.mp hp
    by_cases hqk : (q.1 == k) = true
    · rw [if_pos hqk] at hqp
      rw [← hqp]
      exact hk
    · rw [if_neg hqk] at hqp
      rw [← hqp]
      exact hall q hq
  · rw [List.all_eq_true] at hall ⊢
    intro p hp
    rcases List.mem_append.mp hp with h | h
    · exact hall p h
    · simp only [List.mem_singleton] at h
      rw [h]
      exact hk

theorem invNodeB_of_mem (L : List String) (es : JEntries) (k : String) (v : JNode)
    (hinv : invEntries L es = true) (hmem : (k, v) ∈ es) : invNodeB L v = true := by
  rw [invEntries_iff_all] at hinv
  exact List.all_eq_true.mp hinv (k, v) hmem

theorem invNode_updTreeNode (L : List String) (l v : String) (hl : l ∈ L) :
    ∀ (ks : List String) (nd : JNode) (last : String) (nd' : JNode),
      invNodeB L nd = true →
      (∀ les, getNode (some nd) (ks ++ [last]) = some (.obj les) →
        leafCheck L les = true) →
      updTreeNode nd ks last l v = .ok nd' → invNodeB L nd' = true := by
  intro ks
  induction ks with
  | nil =>
      intro nd last nd' hinv htgt hok
      cases nd with
      | str s =>
          simp only [updTreeNode] at hok
          cases hg : strGet s last with
          | some c => rw [hg] at hok; exact Except.noConfusion hok
          | none =>
              rw [hg] at hok
              simp only [Except.ok.injEq] at hok
              subst hok
              exact hinv
      | obj es =>
          simp only [updTreeNode] at hok
          cases hlook : lookupEntry es last with
          | none =>
              rw [hlook] at hok
              simp only [Except.ok.injEq] at hok
              subst hok
              exact hinv
          | some tv =>
              rw [hlook] at hok
              cases tv with
              | str s =>
                  simp only [] at hok
                  by_cases hs : (s == "") = true
                  · rw [if_pos hs] at hok
                    simp only [Except.ok.injEq] at hok
                    subst hok
                    exact hinv
                  · rw [if_neg hs] at hok
                    exact Except.noConfusion hok
              | obj les =>
                  simp only [Except.ok.injEq] at hok
                  subst hok
                  have hmem := lookupEntry_mem es last _ hlook
                  by_cases hleafC : leafCheck L es = true
                  · -- container is leaf-classified: only its keys matter
                    simp only [invNodeB, if_pos hleafC] at hinv
                    have hkeq := leafCheck_setKey_mem L es last _
                      (JNode.obj (setKey les l (.str v))) hlook
                    simp only [invNodeB, hkeq, if_pos hleafC]
                    apply all_keys_setKey es last _ _ hinv
                    exact List.all_eq_true.mp hinv _ hmem
                  · -- container is a namespace: the mutated leaf must stay legal
                    have hleafT : leafCheck L les = true := htgt les (by
                      simp only [List.nil_append, getNode, JNode.get]
                      rw [hlook])
                    simp only [invNodeB, if_neg hleafC] at hinv
                    have hvinv : invNodeB L (JNode.obj les) = true :=
                      invNodeB_of_mem L es last _ hinv hmem
                    simp only [invNodeB, if_pos hleafT] at hvinv
                    have hkeq := leafCheck_setKey_mem L es last _
                      (JNode.obj (setKey les l (.str v))) hlook
                    simp only [invNodeB, hkeq, if_neg hleafC]
                    rw [invEntries_iff_all] at hinv ⊢
                    apply all_setKey es last _ _ hinv
                    -- the new leaf value satisfies invNodeB
                    have hlk : leafCheck L (setKey les l (.str v)) = true := by
                      rw [leafCheck_keys]
                      exact List.any_eq_true.mpr
                        ⟨l, mem_keysOf_setKey les l (.str v),
                          (contains_eq_mem L l).mpr hl⟩
                    simp only [invNodeB, if_pos hlk]
                    apply all_keys_setKey les l _ _ hvinv
                    exact (contains_eq_mem L l).mpr hl
  | cons k ks ih =>
      intro nd last nd' hinv htgt hok
      cases nd with
      | str s =>
          simp only [updTreeNode] at hok
          cases hg : strGet s k with
          | none => rw [hg] at hok; exact Except.noConfusion hok
          | some c =>
              rw [hg] at hok
              simp only [] at hok
              cases hrec : updTreeNode c ks last l v with
              | error e => rw [hrec] at hok; exact Except.noConfusion hok
              | ok c' =>
                  rw [hrec] at hok
                  simp only [Except.map, Except.ok.injEq] at hok
                  subst hok
                  exact hinv
      | obj es =>
          simp only [updTreeNode] at hok
          cases hlook : lookupEntry es k with
          | none => rw [hlook] at hok; exact Except.noConfusion hok
          | some child =>
              rw [hlook] at hok
              simp only [] at hok
              cases hrec : updTreeNode child ks last l v with
              | error e => rw [hrec] at hok; exact Except.noConfusion hok
              | ok child' =>
                  rw [hrec] at hok
                  simp only [Except.map, Except.ok.injEq] at hok
                  subst hok
                  have hmem := lookupEntry_mem es k _ hlook
                  have hkeq := leafCheck_setKey_mem L es k _ child' hlook
                  by_cases hleafC : leafCheck L es = true
                  · simp only [invNodeB, if_pos hleafC] at hinv
                    simp only [invNodeB, hkeq, if_pos hleafC]
                    apply all_keys_setKey es k _ _ hinv
                    exact List.all_eq_true.mp hinv _ hmem
                  · simp only [invNodeB, if_neg hleafC] at hinv
                    have hchild : invNodeB L child = true :=
                      invNodeB_of_mem L es k _ hinv hmem
                    have htgt' : ∀ les, getNode (some child) (ks ++ [last]) =
                        some (.obj les) → leafCheck L les = true := by
                      intro les hg2
                      apply htgt les
                      simp only [List.cons_append, getNode, JNode.get]
                      rw [hlook]
                      exact hg2
                    have hchild' := ih child last child' hchild htgt' hrec
                    simp only [invNodeB, hkeq, if_neg hleafC]
                    rw [invEntries_iff_all] at hinv ⊢
                    exact all_setKey es k child' _ hinv hchild'

theorem splitPathChars_ne_nil : ∀ cs : List Char, splitPathChars cs ≠ []
  | [] => by simp [splitPathChars]
  | c :: rest => by
      simp only [splitPathChars]
      split
      · simp
      · cases h : splitPathChars rest with
        | nil => simp
        | cons w ws => simp

theorem splitPath_ne_nil (s : String) : splitPath s ≠ [] :=
  splitPathChars_ne_nil s.toList

theorem dropLast_append_getLastD (d : String) :
    ∀ l : List String, l ≠ [] → l.dropLast ++ [l.getLastD d] = l
  | [x], _ => by simp
  | x :: y :: t, _ => by
      have := dropLast_append_getLastD d (y :: t) (by simp)
      simp only [List.dropLast_cons₂, List.getLastD_cons, List.cons_append]
      simp only [List.getLastD_cons] at this
      rw [this]

theorem invEntries_updTreeEntries (L : List String) (l v : String) (hl : l ∈ L)
    (pre : List String) (ts : JEntries) (last : String) (ts' : JEntries)
    (hinv : invEntries L ts = true)
    (htgt : ∀ les, getNode (some (.obj ts)) (pre ++ [last]) = some (.obj les) →
      leafCheck L les = true)
    (hok : updTreeEntries ts pre last l v = .ok ts') : invEntries L ts' = true := by
  cases pre with
  | nil =>
      simp only [updTreeEntries] at hok
      cases hlook : lookupEntry ts last with
      | none =>
          rw [hlook] at hok
          simp only [Except.ok.injEq] at hok
          subst hok
          exact hinv
      | some tv =>
          rw [hlook] at hok
          cases tv with
          | str s =>
              simp only [] at hok
              by_cases hs : (s == "") = true
              · rw [if_pos hs] at hok
                simp only [Except.ok.injEq] at hok
                subst hok
                exact hinv
              · rw [if_neg hs] at hok
                exact Except.noConfusion hok
          | obj les =>
              simp only [Except.ok.injEq] at hok
              subst hok
              have hmem := lookupEntry_mem ts last _ hlook
              have hleafT : leafCheck L les = true := htgt les (by
                simp only [List.nil_append, getNode, JNode.get]
                rw [hlook])
              have hvinv : invNodeB L (JNode.obj les) = true :=
                invNodeB_of_mem L ts last _ hinv hmem
              simp only [invNodeB, if_pos hleafT] at hvinv
              rw [invEntries_iff_all] at hinv ⊢
              apply all_setKey ts last _ _ hinv
              have hlk : leafCheck L (setKey les l (.str v)) = true := by
                rw [leafCheck_keys]
                exact List.any_eq_true.mpr
                  ⟨l, mem_keysOf_setKey les l (.str v), (contains_eq_mem L l).mpr hl⟩
              simp only [invNodeB, if_pos hlk]
              apply all_keys_setKey les l _ _ hvinv
              exact (contains_eq_mem L l).mpr hl
  | cons k ks =>
      simp only [updTreeEntries] at hok
      cases hlook : lookupEntry ts k with
      | none => rw [hlook] at hok; exact Except.noConfusion hok
      | some child =>
          rw [hlook] at hok
          simp only [] at hok
          cases hrec : updTreeNode child ks last l v with
          | error e => rw [hrec] at hok; exact Except.noConfusion hok
          | ok child' =>
              rw [hrec] at hok
              simp only [Except.map, Except.ok.injEq] at hok
              subst hok
              have hmem := lookupEntry_mem ts k _ hlook
              have hchild : invNodeB L child = true := invNodeB_of_mem L ts k _ hinv hmem
              have htgt' : ∀ les, getNode (some child) (ks ++ [last]) = some (.obj les) →
                  leafCheck L les = true := by
                intro les hg2
                apply htgt les
                simp only [List.cons_append, getNode, JNode.get]
                rw [hlook]
                exact hg2
              have hchild' := invNode_updTreeNode L l v hl ks child last child' hchild htgt' hrec
              rw [invEntries_iff_all] at hinv ⊢
              exact all_setKey ts k child' _ hinv hchild'

theorem contains_append_elim (L : List String) (c a : String)
    (h : (L ++ [c]).contains a = true) : a ∈ L ∨ a = c := by
  have := (contains_eq_mem _ a).mp h
  rcases List.mem_append.mp this with h1 | h1
  · exact Or.inl h1
  · exact Or.inr (by simpa using h1)

theorem mem_keysOf_eraseKey_ne (es : JEntries) (c a : String)
    (h : a ∈ keysOf (eraseKey es c)) : a ≠ c := by
  obtain ⟨p, hp, hpa⟩ := List.mem_map.mp h
  have := (List.mem_filter.mp hp).2
  simp only [bne_iff_ne, ne_eq, decide_eq_true_eq] at this
  rw [← hpa]
  exact this

theorem invNode_renameTreeNode (L : List String) (k n : String) (hn : n ∉ L) :
    ∀ (ks : List String) (nd : JNode) (nd' : JNode),
      invNodeB L nd = true →
      (∀ pes, getNode (some nd) ks = some (.obj pes) → leafCheck L pes = false) →
      renameTreeNode nd ks k n = .ok nd' → invNodeB L nd' = true := by
  intro ks
  induction ks with
  | nil =>
      intro nd nd' hinv hpar hok
      cases nd with
      | str s =>
          simp only [renameTreeNode] at hok
          cases hg : strGet s k with
          | some c => rw [hg] at hok; exact Except.noConfusion hok
          | none =>
              rw [hg] at hok
              simp only [Except.ok.injEq] at hok
              subst hok
              exact hinv
      | obj pes =>
          simp only [renameTreeNode] at hok
          cases hlook : lookupEntry pes k with
          | none =>
              rw [hlook] at hok
              simp only [Except.ok.injEq] at hok
              subst hok
              exact hinv
          | some w =>
              rw [hlook] at hok
              simp only [Except.ok.injEq] at hok
              subst hok
              have hleafF : leafCheck L pes = false := hpar pes (by simp [getNode])
              have hinv2 : invEntries L pes = true := by
                simpa [invNodeB, hleafF] using hinv
              have hw : invNodeB L w = true :=
                invNodeB_of_mem L pes k w hinv2 (lookupEntry_mem _ _ _ hlook)
              have hleafF' : leafCheck L (eraseKey (setKey pes n w) k) = false := by
                rw [leafCheck_keys]
                rw [← Bool.not_eq_true, List.any_eq_true]
                rintro ⟨a, ha, hac⟩
                have ha2 := keysOf_eraseKey_subset _ k a ha
                rcases keysOf_setKey_subset pes n w a ha2 with h1 | h1
                · have hcontra : leafCheck L pes = true := by
                    rw [leafCheck_keys]
                    exact List.any_eq_true.mpr ⟨a, h1, hac⟩
                  rw [hcontra] at hleafF
                  exact Bool.noConfusion hleafF
                · rw [h1] at hac
                  exact hn ((contains_eq_mem L n).mp hac)
              simp only [invNodeB, hleafF', Bool.false_eq_true, if_false]
              rw [invEntries_iff_all]
              apply all_eraseKey
              apply all_setKey pes n w _ _ hw
              rw [← invEntries_iff_all]
              exact hinv2
  | cons a ks ih =>
      intro nd nd' hinv hpar hok
      cases nd with
      | str s =>
          simp only [renameTreeNode] at hok
          cases hg : strGet s a with
          | none => rw [hg] at hok; exact Except.noConfusion hok
          | some c =>
              rw [hg] at hok
              simp only [] at hok
              cases hrec : renameTreeNode c ks k n with
              | error e => rw [hrec] at hok; exact Except.noConfusion hok
              | ok c' =>
                  rw [hrec] at hok
                  simp only [Except.map, Except.ok.injEq] at hok
                  subst hok
                  exact hinv
      | obj es =>
          simp only [renameTreeNode] at hok
          cases hlook : lookupEntry es a with
          | none => rw [hlook] at hok; exact Except.noConfusion hok
          | some child =>
              rw [hlook] at hok
              simp only [] at hok
              cases hrec : renameTreeNode child ks k n with
              | error e => rw [hrec] at hok; exact Except.noConfusion hok
              | ok child' =>
                  rw [hrec] at hok
                  simp only [Except.map, Except.ok.injEq] at hok
                  subst hok
                  have hmem := lookupEntry_mem es a _ hlook
                  have hkeq := leafCheck_setKey_mem L es a _ child' hlook
                  by_cases hleafC : leafCheck L es = true
                  · simp only [invNodeB, if_pos hleafC] at hinv
                    simp only [invNodeB, hkeq, if_pos hleafC]
                    apply all_keys_setKey es a _ _ hinv
                    exact List.all_eq_true.mp hinv _ hmem
                  · simp only [invNodeB, if_neg hleafC] at hinv
                    have hchild : invNodeB L child = true :=
                      invNodeB_of_mem L es a _ hinv hmem
                    have hpar' : ∀ pes, getNode (some child) ks = some (.obj pes) →
                        leafCheck L pes = false := by
                      intro pes hg2
                      apply hpar pes
                      simp only [getNode, JNode.get]
                      rw [hlook]
                      exact hg2
                    have hchild' := ih child child' hchild hpar' hrec
                    simp only [invNodeB, hkeq, if_neg hleafC]
                    rw [invEntries_iff_all] at hinv ⊢
                    exact all_setKey es a child' _ hinv hchild'

theorem invEntries_renameTreeEntries (L : List String) (k n : String)
    (pre : List String) (ts ts' : JEntries)
    (hinv : invEntries L ts = true)
    (hOK : pre = [] ∨
      ((∀ pes, getNode (some (.obj ts)) pre = some (.obj pes) →
          leafCheck L pes = false) ∧ n ∉ L))
    (hok : renameTreeEntries ts pre k n = .ok ts') : invEntries L ts' = true := by
  cases pre with
  | nil =>
      simp only [renameTreeEntries] at hok
      cases hlook : lookupEntry ts k with
      | none =>
          rw [hlook] at hok
          simp only [Except.ok.injEq] at hok
          subst hok
          exact hinv
      | some w =>
          rw [hlook] at hok
          simp only [Except.ok.injEq] at hok
          subst hok
          have hw : invNodeB L w = true :=
            invNodeB_of_mem L ts k w hinv (lookupEntry_mem _ _ _ hlook)
          rw [invEntries_iff_all] at hinv ⊢
          apply all_eraseKey
          exact all_setKey ts n w _ hinv hw
  | cons a ks =>
      rcases hOK with h | ⟨hpar, hn⟩
      · exact List.noConfusion h
      simp only [renameTreeEntries] at hok
      cases hlook : lookupEntry ts a with
      | none => rw [hlook] at hok; exact Except.noConfusion hok
      | some child =>
          rw [hlook] at hok
          simp only [] at hok
          cases hrec : renameTreeNode child ks k n with
          | error e => rw [hrec] at hok; exact Except.noConfusion hok
          | ok child' =>
              rw [hrec] at hok
              simp only [Except.map, Except.ok.injEq] at hok
              subst hok
              have hmem := lookupEntry_mem ts a _ hlook
              have hchild : invNodeB L child = true := invNodeB_of_mem L ts a _ hinv hmem
              have hpar' : ∀ pes, getNode (some child) ks = some (.obj pes) →
                  leafCheck L pes = false := by
                intro pes hg2
                apply hpar pes
                simp only [getNode, JNode.get]
                rw [hlook]
                exact hg2
              have hchild' := invNode_renameTreeNode L k n hn ks child child' hchild hpar' hrec
              rw [invEntries_iff_all] at hinv ⊢
              exact all_setKey ts a child' _ hinv hchild'

theorem invEntries_addLang (L : List String) (c : String) :
    ∀ es : JEntries, invEntries L es = true → nsAvoidKey L c es = true →
      invEntries (L ++ [c]) (addLangEntries L c es) = true := by
  apply jentries_ind (P := fun es => invEntries L es = true → nsAvoidKey L c es = true →
      invEntries (L ++ [c]) (addLangEntries L c es) = true)
  · intro _ _
    simp [addLangEntries, invEntries]
  · intro k s rest ih hinv havoid
    simp only [invEntries] at hinv
    simp only [nsAvoidKey] at havoid
    simp only [addLangEntries]
    exact ih hinv havoid
  · intro k ces rest ihces ihrest hinv havoid
    simp only [invEntries, Bool.and_eq_true] at hinv
    obtain ⟨hhead, hrest⟩ := hinv
    simp only [nsAvoidKey, Bool.and_eq_true] at havoid
    obtain ⟨hahead, harest⟩ := havoid
    by_cases hleaf : leafCheck L ces = true
    · rw [if_pos hleaf] at hhead
      simp only [addLangEntries, if_pos hleaf]
      have hleaf2 : leafCheck (L ++ [c]) (setKey ces c (.str "")) = true := by
        rw [leafCheck_keys]
        exact List.any_eq_true.mpr
          ⟨c, mem_keysOf_setKey ces c (.str ""), (contains_eq_mem _ c).mpr (by simp)⟩
      simp only [invEntries, if_pos hleaf2, Bool.and_eq_true]
      refine ⟨?_, ihrest hrest harest⟩
      apply all_keys_setKey ces c _ _ ?_ ((contains_eq_mem _ c).mpr (by simp))
      rw [List.all_eq_true] at hhead ⊢
      intro p hp
      have := hhead p hp
      rcases (contains_eq_mem L p.1).mp this with hmem2
      exact (contains_eq_mem _ p.1).mpr (List.mem_append.mpr (Or.inl hmem2))
    · rw [if_neg hleaf] at hhead
      rw [if_neg hleaf] at hahead
      rw [Bool.and_eq_true] at hahead
      obtain ⟨hnoc, hav⟩ := hahead
      simp only [addLangEntries, if_neg hleaf]
      have hleaf2 : leafCheck (L ++ [c]) (addLangEntries L c ces) = false := by
        rw [leafCheck_keys]
        rw [← Bool.not_eq_true, List.any_eq_true]
        rintro ⟨a, ha, hac⟩
        have ha2 := keysOf_addLang_subset L c ces a ha
        rcases contains_append_elim L c a hac with h1 | h1
        · have hcontra : leafCheck L ces = true := by
            rw [leafCheck_keys]
            exact List.any_eq_true.mpr ⟨a, ha2, (contains_eq_mem L a).mpr h1⟩
          exact hleaf hcontra
        · simp only [Bool.not_eq_true', List.any_eq_false] at hnoc
          obtain ⟨q, hq, hq1⟩ := List.mem_map.mp ha2
          have := hnoc q hq
          rw [hq1, h1] at this
          simp at this
      simp only [invEntries, hleaf2, Bool.false_eq_true, if_false, Bool.and_eq_true]
      exact ⟨ihces hhead hav, ihrest hrest harest⟩

theorem invEntries_removeLang (L : List String) (c : String) :
    ∀ es : JEntries, invEntries L es = true →
      invEntries (L.filter (fun l => l != c)) (removeLangEntries L c es) = true := by
  apply jentries_ind (P := fun es => invEntries L es = true →
      invEntries (L.filter (fun l => l != c)) (removeLangEntries L c es) = true)
  · intro _
    simp [removeLangEntries, invEntries]
  · intro k s rest ih hinv
    simp only [invEntries] at hinv
    simp only [removeLangEntries]
    exact ih hinv
  · intro k ces rest ihces ihrest hinv
    simp only [invEntries, Bool.and_eq_true] at hinv
    obtain ⟨hhead, hrest⟩ := hinv
    by_cases hleaf : leafCheck L ces = true
    · rw [if_pos hleaf] at hhead
      simp only [removeLangEntries, if_pos hleaf]
      have hkeys : ∀ a ∈ keysOf (eraseKey ces c),
          (L.filter (fun l => l != c)).contains a = true := by
        intro a ha
        have hane := mem_keysOf_eraseKey_ne ces c a ha
        have ha2 := keysOf_eraseKey_subset ces c a ha
        obtain ⟨q, hq, hq1⟩ := List.mem_map.mp ha2
        have := List.all_eq_true.mp hhead q hq
        rw [hq1] at this
        have hmem : a ∈ L := (contains_eq_mem L a).mp this
        apply (contains_eq_mem _ a).mpr
        apply List.mem_filter.mpr
        exact ⟨hmem, by simpa using hane⟩
      by_cases hleaf2 : leafCheck (L.filter (fun l => l != c)) (eraseKey ces c) = true
      · simp only [invEntries, if_pos hleaf2, Bool.and_eq_true]
        refine ⟨?_, ihrest hrest⟩
        rw [List.all_eq_true]
        intro p hp
        exact hkeys p.1 (List.mem_map_of_mem _ hp)
      · cases herase : eraseKey ces c with
        | nil =>
            simp only [invEntries, herase] at hleaf2 ⊢
            simp only [leafCheck, List.any_nil] at hleaf2 ⊢
            simp [ihrest hrest]
        | cons q qs =>
            exfalso
            apply hleaf2
            rw [leafCheck_keys]
            apply List.any_eq_true.mpr
            refine ⟨q.1, ?_, ?_⟩
            · rw [herase] at hkeys ⊢
              simp [keysOf]
            · apply hkeys
              rw [herase]
              simp [keysOf]
    · rw [if_neg hleaf] at hhead
      simp only [removeLangEntries, if_neg hleaf]
      have hleaf2 : leafCheck (L.filter (fun l => l != c)) (removeLangEntries L c ces) = false := by
        rw [leafCheck_keys]
        rw [← Bool.not_eq_true, List.any_eq_true]
        rintro ⟨a, ha, hac⟩
        have ha2 := keysOf_removeLang_subset L c ces a ha
        have hmem : a ∈ L := (List.mem_filter.mp ((contains_eq_mem _ a).mp hac)).1
        apply hleaf
        rw [leafCheck_keys]
        exact List.any_eq_true.mpr ⟨a, ha2, (contains_eq_mem L a).mpr hmem⟩
      simp only [invEntries, hleaf2, Bool.false_eq_true, if_false, Bool.and_eq_true]
      exact ⟨ihces hhead, ihrest hrest⟩

/-- C5 (amended): every operation preserves the leaf invariant — the key
set of every leaf-classified node is a subset of the active codes, in both
the catalog and the snapshot — provided `updateTranslation` writes an
active language into a leaf-classified target, `renameKey` acts at the
root or under a namespace-classified parent with a new name that is not an
active code, and `addLanguage`'s new code is no namespace key.  Language
removal, save and discard need no proviso. -/
theorem C5_leaf_invariant (st : EditorState) (op : Op)
    (hinv : InvState st) (hOK : opOK st op) : InvState (step st op) := by
  obtain ⟨h1, h2⟩ := hinv
  cases op with
  | update p l v =>
      obtain ⟨hl, htgt⟩ := hOK
      simp only [step]
      cases hup : updateTranslation st p l v with
      | error e => exact ⟨h1, h2⟩
      | ok st' =>
          simp only [updateTranslation] at hup
          cases hts : updTreeEntries st.data.translations ((splitPath p).dropLast)
              ((splitPath p).getLastD "") l v with
          | error e => rw [hts] at hup; exact absurd hup (by simp)
          | ok ts2 =>
              rw [hts] at hup
              simp only [] at hup
              cases horig : origLookup st.originalData.translations
                  ((splitPath p).dropLast) ((splitPath p).getLastD "") l with
              | error e => rw [horig] at hup; exact absurd hup (by simp)
              | ok ov =>
                  rw [horig] at hup
                  simp only [Except.ok.injEq] at hup
                  subst hup
                  refine ⟨?_, h2⟩
                  apply invEntries_updTreeEntries st.data.languages l v hl _ _ _ _ h1 ?_ hts
                  intro les hg
                  apply htgt les
                  rw [dropLast_append_getLastD "" (splitPath p) (splitPath_ne_nil p)] at hg
                  exact hg
  | rename p n =>
      simp only [step]
      cases hre : renameKey st p n with
      | error e => exact ⟨h1, h2⟩
      | ok st' =>
          simp only [renameKey] at hre
          cases hts : renameTreeEntries st.data.translations ((splitPath p).dropLast)
              ((splitPath p).getLastD "") n with
          | error e => rw [hts] at hre; exact absurd hre (by simp)
          | ok ts2 =>
              rw [hts] at hre
              simp only [Except.ok.injEq] at hre
              subst hre
              refine ⟨?_, h2⟩
              exact invEntries_renameTreeEntries st.data.languages _ n _ _ _ h1 hOK hts
  | addLang c =>
      simp only [step, addLanguage]
      by_cases hc : st.data.languages.contains c = true
      · rw [if_pos hc]
        exact ⟨h1, h2⟩
      · rw [if_neg hc]
        have havoid : nsAvoidKey st.data.languages c st.data.translations = true := by
          rcases hOK with h | h
          · exact absurd h hc
          · exact h
        exact ⟨invEntries_addLang _ c _ h1 havoid, h2⟩
  | removeLang c =>
      simp only [step, removeLanguage]
      split
      · exact ⟨h1, h2⟩
      · exact ⟨invEntries_removeLang _ c _ h1, h2⟩
  | save => exact ⟨h1, h1⟩
  | discard => exact ⟨h2, h2⟩

/-- C5 counterexample: updating with an active language but addressing a
namespace node violates the invariant: `updateTranslation("a","en","hello")`
on a catalog with the namespace `a` over the leaf `a.b` plants the string
entry `en` inside the namespace, which is thereafter leaf-classified while
keeping its child key `b` — a leaf whose key set is not contained in the
language list. -/
theorem C5_counterexample :
    InvState c5State ∧ ¬ InvState (step c5State (.update "a" "en" "hello")) := by
  constructor
  · exact ⟨by simp [invEntries, leafCheck, c5State, c5Catalog],
      by simp [invEntries, leafCheck, c5State, c5Catalog]⟩
  · intro hcon
    have hbad := hcon.1
    rw [show (step c5State (.update "a" "en" "hello")).data.languages = ["en"] from rfl,
      show (step c5State (.update "a" "en" "hello")).data.translations =
        [("a", .obj [("b", .obj [("en", .str "x")]), ("en", .str "hello")])] from rfl] at hbad
    simp [invEntries, leafCheck] at hbad

/-- C5 witness: filling in the missing German translation of the demo leaf
keeps the invariant. -/
theorem C5_leaf_invariant_witness :
    InvState (step demoState
      (.update "auth.login.forgot_password" "de" "Passwort vergessen?")) := by
  apply C5_leaf_invariant demoState _
    ⟨by simp [invEntries, leafCheck, demoState, demoCatalog, demoTree],
     by simp [invEntries, leafCheck, demoState, demoCatalog, demoTree]⟩
  refine ⟨by decide, ?_⟩
  intro les h
  rw [show getNode (some (.obj demoState.data.translations))
      (splitPath "auth.login.forgot_password") =
      some (JNode.obj [("en", JNode.str "Forgot password?"), ("de", JNode.str "")])
    from rfl] at h
  have hles : les = [("en", JNode.str "Forgot password?"), ("de", JNode.str "")] := by
    injection h with h1
    injection h1 with h2
    exact h2.symm
  subst hles
  decide

/-! ## C4: idempotent revert and the no-no-op property of the pending list -/

/-- On success, the throwing walk agrees with the optional-chained walk. -/
theorem walk_getNode : ∀ (pre : List String) (cur : Option JNode) (r : Option JNode),
    walk cur pre = .ok r → getNode cur pre = r := by
  intro pre
  induction pre with
  | nil =>
      intro cur r h
      simp only [walk, Except.ok.injEq] at h
      simpa [getNode] using h
  | cons k ks ih =>
      intro cur r h
      cases cur with
      | none => simp only [walk] at h; exact Except.noConfusion h
      | some n =>
          simp only [walk] at h
          simp only [getNode]
          exact ih _ r h

/-- When the claim-side snapshot value at `(p, l)` is the string `v₀`, a
successful `origLookup` along the code's split of `p` returns `.str v₀`
(the `|| ''` fallback and the string case coincide with the spec reading). -/
theorem origLookup_spec (root : JEntries) (p l v₀ : String)
    (hspec : specSnapshotValue root p l = some v₀)
    (ov : JNode)
    (hok : origLookup root ((splitPath p).dropLast) ((splitPath p).getLastD "") l = .ok ov) :
    ov = .str v₀ := by
  have hsplit : (splitPath p).dropLast ++ [(splitPath p).getLastD ""] = splitPath p :=
    dropLast_append_getLastD "" (splitPath p) (splitPath_ne_nil p)
  simp only [specSnapshotValue] at hspec
  rw [← hsplit, List.append_assoc] at hspec
  rw [getNode_append] at hspec
  simp only [origLookup] at hok
  cases hw : walk (some (.obj root)) ((splitPath p).dropLast) with
  | error e => rw [hw] at hok; exact Except.noConfusion hok
  | ok cur =>
      rw [hw] at hok
      cases cur with
      | none => simp only [] at hok; exact Except.noConfusion hok
      | some nd =>
          simp only [] at hok
          rw [walk_getNode _ _ _ hw] at hspec
          simp only [List.cons_append, List.nil_append, getNode] at hspec
          cases hg : nd.get ((splitPath p).getLastD "") with
          | none =>
              rw [hg] at hok hspec
              simp only [Except.ok.injEq] at hok
              simp only [Option.some.injEq] at hspec
              rw [← hok, ← hspec]
          | some m =>
              rw [hg] at hok hspec
              simp only [Except.ok.injEq] at hok
              simp only [] at hspec
              cases hgl : m.get l with
              | none =>
                  rw [hgl] at hok hspec
                  simp only [Option.getD] at hok
                  simp only [Option.some.injEq] at hspec
                  rw [← hok, ← hspec]
              | some w =>
                  rw [hgl] at hok hspec
                  simp only [Option.getD] at hok
                  cases w with
                  | str s =>
                      simp only [Option.some.injEq] at hspec
                      rw [← hok, ← hspec]
                  | obj o => exact Option.noConfusion hspec

/-- Once a mutation at `(path, l)` has succeeded on a node, a further
mutation there succeeds as well, both on the original node and on the
mutated one. -/
theorem updTreeNode_again (l : String) :
    ∀ (ks : List String) (nd : JNode) (last v : String) (nd' : JNode),
      updTreeNode nd ks last l v = .ok nd' →
      ∀ v', (∃ nd2, updTreeNode nd ks last l v' = .ok nd2) ∧
        (∃ nd3, updTreeNode nd' ks last l v' = .ok nd3) := by
  intro ks
  induction ks with
  | nil =>
      intro nd last v nd' hok v'
      cases nd with
      | str s =>
          simp only [updTreeNode] at hok ⊢
          cases hg : strGet s last with
          | some c => rw [hg] at hok; exact Except.noConfusion hok
          | none =>
              rw [hg] at hok
              simp only [Except.ok.injEq] at hok
              subst hok
              simp only [updTreeNode, hg]
              exact ⟨⟨_, rfl⟩, ⟨_, rfl⟩⟩
      | obj es =>
          simp only [updTreeNode] at hok
          cases hlook : lookupEntry es last with
          | none =>
              rw [hlook] at hok
              simp only [Except.ok.injEq] at hok
              subst hok
              simp only [updTreeNode, hlook]
              exact ⟨⟨_, rfl⟩, ⟨_, rfl⟩⟩
          | some tv =>
              rw [hlook] at hok
              cases tv with
              | str s =>
                  simp only [] at hok
                  by_cases hs : (s == "") = true
                  · rw [if_pos hs] at hok
                    simp only [Except.ok.injEq] at hok
                    subst hok
                    simp only [updTreeNode, hlook]
                    rw [if_pos hs]
                    exact ⟨⟨_, rfl⟩, ⟨_, rfl⟩⟩
                  · rw [if_neg hs] at hok
                    exact Except.noConfusion hok
              | obj les =>
                  simp only [Except.ok.injEq] at hok
                  subst hok
                  constructor
                  · simp only [updTreeNode, hlook]
                    exact ⟨_, rfl⟩
                  · simp only [updTreeNode, lookup_setKey_self]
                    exact ⟨_, rfl⟩
  | cons k ks ih =>
      intro nd last v nd' hok v'
      cases nd with
      | str s =>
          simp only [updTreeNode] at hok
          cases hg : strGet s k with
          | none => rw [hg] at hok; exact Except.noConfusion hok
          | some c =>
              rw [hg] at hok
              simp only [] at hok
              cases hrec : updTreeNode c ks last l v with
              | error e => rw [hrec] at hok; exact Except.noConfusion hok
              | ok c' =>
                  rw [hrec] at hok
                  simp only [Except.map, Except.ok.injEq] at hok
                  subst hok
                  obtain ⟨⟨c2, hc2⟩, _⟩ := ih c last v c' hrec v'
                  constructor
                  · refine ⟨.str s, ?_⟩
                    simp only [updTreeNode, hg, hc2, Except.map]
                  · refine ⟨.str s, ?_⟩
                    simp only [updTreeNode, hg, hc2, Except.map]
      | obj es =>
          simp only [updTreeNode] at hok
          cases hlook : lookupEntry es k with
          | none => rw [hlook] at hok; exact Except.noConfusion hok
          | some child =>
              rw [hlook] at hok
              simp only [] at hok
              cases hrec : updTreeNode child ks last l v with
              | error e => rw [hrec] at hok; exact Except.noConfusion hok
              | ok child' =>
                  rw [hrec] at hok
                  simp only [Except.map, Except.ok.injEq] at hok
                  subst hok
                  obtain ⟨⟨c2, hc2⟩, ⟨c3, hc3⟩⟩ := ih child last v child' hrec v'
                  constructor
                  · refine ⟨.obj (setKey es k c2), ?_⟩
                    simp only [updTreeNode, hlook, hc2, Except.map]
                  · refine ⟨.obj (setKey (setKey es k child') k c3), ?_⟩
                    simp only [updTreeNode, lookup_setKey_self, hc3, Except.map]

/-- Entry-list version of `updTreeNode_again`: a successful tree mutation
can be repeated with any value. -/
theorem updTreeEntries_again (l : String) (pre : List String) (ts : JEntries)
    (last v : String) (ts' : JEntries)
    (hok : updTreeEntries ts pre last l v = .ok ts') :
    ∀ v', ∃ ts'', updTreeEntries ts' pre last l v' = .ok ts'' := by
  intro v'
  cases pre with
  | nil =>
      simp only [updTreeEntries] at hok
      cases hlook : lookupEntry ts last with
      | none =>
          rw [hlook] at hok
          simp only [Except.ok.injEq] at hok
          subst hok
          simp only [updTreeEntries, hlook]
          exact ⟨_, rfl⟩
      | some tv =>
          rw [hlook] at hok
          cases tv with
          | str s =>
              simp only [] at hok
              by_cases hs : (s == "") = true
              · rw [if_pos hs] at hok
                simp only [Except.ok.injEq] at hok
                subst hok
                simp only [updTreeEntries, hlook]
                rw [if_pos hs]
                exact ⟨_, rfl⟩
              · rw [if_neg hs] at hok
                exact Except.noConfusion hok
          | obj les =>
              simp only [Except.ok.injEq] at hok
              subst hok
              simp only [updTreeEntries, lookup_setKey_self]
              exact ⟨_, rfl⟩
  | cons k ks =>
      simp only [updTreeEntries] at hok
      cases hlook : lookupEntry ts k with
      | none => rw [hlook] at hok; exact Except.noConfusion hok
      | some child =>
          rw [hlook] at hok
          simp only [] at hok
          cases hrec : updTreeNode child ks last l v with
          | error e => rw [hrec] at hok; exact Except.noConfusion hok
          | ok child' =>
              rw [hrec] at hok
              simp only [Except.map, Except.ok.injEq] at hok
              subst hok
              obtain ⟨_, ⟨child'', hc''⟩⟩ := updTreeNode_again l ks child last v child' hrec v'
              refine ⟨setKey (setKey ts k child') k child'', ?_⟩
              simp only [updTreeEntries, lookup_setKey_self, hc'', Except.map]

/-- After a successful `updateTranslation` at `(p, l)`, every further
`updateTranslation` at the same pair succeeds. -/
theorem update_again (st st' : EditorState) (p l v : String)
    (hok : updateTranslation st p l v = .ok st') :
    ∀ v', ∃ st'', updateTranslation st' p l v' = .ok st'' := by
  intro v'
  simp only [updateTranslation] at hok ⊢
  cases hts : updTreeEntries st.data.translations ((splitPath p).dropLast)
      ((splitPath p).getLastD "") l v with
  | error e => rw [hts] at hok; exact absurd hok (by simp)
  | ok ts2 =>
      rw [hts] at hok
      simp only [] at hok
      cases horig : origLookup st.originalData.translations ((splitPath p).dropLast)
          ((splitPath p).getLastD "") l with
      | error e => rw [horig] at hok; exact absurd hok (by simp)
      | ok ov =>
          rw [horig] at hok
          simp only [Except.ok.injEq] at hok
          subst hok
          obtain ⟨ts3, hts3⟩ := updTreeEntries_again l _ _ _ v ts2 hts v'
          rw [hts3]
          simp only [horig]
          exact ⟨_, rfl⟩

/-- Erasing an index whose element matches decrements the match count. -/
theorem countP_eraseIdx_match (P : UnsavedChange → Bool) (cs : List UnsavedChange) (i : Nat)
    (hi : i < cs.length) (hm : P cs[i] = true) :
    (cs.eraseIdx i).countP P + 1 = cs.countP P := by
  rw [List.eraseIdx_eq_take_drop_succ, List.countP_append]
  conv_rhs => rw [← List.take_append_drop i cs]
  rw [List.countP_append, List.drop_eq_getElem_cons hi, List.countP_cons_of_pos _ _ hm]
  omega

/-- Overwriting a matching index with another matching element keeps the
match count. -/
theorem countP_set_match (P : UnsavedChange → Bool) (cs : List UnsavedChange) (i : Nat)
    (hi : i < cs.length) (hm : P cs[i] = true) (x : UnsavedChange) (hx : P x = true) :
    (cs.set i x).countP P = cs.countP P := by
  rw [List.set_eq_take_cons_drop x hi, List.countP_append,
    List.countP_cons_of_pos _ _ hx]
  conv_rhs => rw [← List.take_append_drop i cs]
  rw [List.countP_append, List.drop_eq_getElem_cons hi, List.countP_cons_of_pos _ _ hm]

/-- A successful `updateTranslation` preserves `at most one pending entry
per (keyPath, language) pair`: it erases, overwrites in place, or appends
a first entry for the pair. -/
theorem amo_update (st st' : EditorState) (p l v : String)
    (h : AtMostOnePL p l st.unsavedChanges)
    (hok : updateTranslation st p l v = .ok st') :
    AtMostOnePL p l st'.unsavedChanges := by
  simp only [updateTranslation] at hok
  split at hok
  · exact absurd hok (by simp)
  split at hok
  · exact absurd hok (by simp)
  simp only [Except.ok.injEq] at hok
  subst hok
  simp only [AtMostOnePL]
  split
  · split
    · next i hfind =>
        rw [List.findIdx?_eq_some_iff_getElem] at hfind
        obtain ⟨hi, hm, _⟩ := hfind
        have := countP_eraseIdx_match (matchPL p l) st.unsavedChanges i hi hm
        simp only [AtMostOnePL] at h
        omega
    · exact h
  · split
    · next i hfind =>
        rw [List.findIdx?_eq_some_iff_getElem] at hfind
        obtain ⟨hi, hm, _⟩ := hfind
        rw [countP_set_match (matchPL p l) st.unsavedChanges i hi hm _ (by simp [matchPL])]
        exact h
    · next hfind =>
        rw [List.findIdx?_eq_none_iff] at hfind
        rw [List.countP_append]
        have hz : st.unsavedChanges.countP (matchPL p l) = 0 := by
          rw [List.countP_eq_zero]
          intro c hc
          simp [matchPL, hfind c hc]
        rw [hz]
        simp [matchPL]

/-- Reverting: from a state with at most one pending entry for `(p, l)`,
a successful `updateTranslation` with the snapshot value leaves no pending
entry for `(p, l)` (the `reverted` branch erases the matching index). -/
theorem nopl_update_revert (st st' : EditorState) (p l v₀ : String)
    (h : AtMostOnePL p l st.unsavedChanges)
    (hspec : specSnapshotValue st.originalData.translations p l = some v₀)
    (hok : updateTranslation st p l v₀ = .ok st') :
    NoPL p l st'.unsavedChanges := by
  simp only [updateTranslation] at hok
  split at hok
  · exact absurd hok (by simp)
  split at hok
  · exact absurd hok (by simp)
  next ov horig =>
  simp only [Except.ok.injEq] at hok
  subst hok
  have hov : ov = .str v₀ :=
    origLookup_spec st.originalData.translations p l v₀ hspec ov horig
  subst hov
  simp only [beq_self_eq_true, if_true]
  split
  · next i hfind =>
      rw [List.findIdx?_eq_some_iff_getElem] at hfind
      obtain ⟨hi, hm, _⟩ := hfind
      have hc := countP_eraseIdx_match (matchPL p l) st.unsavedChanges i hi hm
      simp only [AtMostOnePL] at h
      have hz : (st.unsavedChanges.eraseIdx i).countP (matchPL p l) = 0 := by omega
      rw [List.countP_eq_zero] at hz
      intro c hc2
      simpa using hz c hc2
  · next hfind =>
      rw [List.findIdx?_eq_none_iff] at hfind
      intro c hc
      simpa [matchPL] using hfind c hc


/-- Invariant carried along a sequence of updates at a fixed `(p, l)`: at
most one matching pending entry, further updates succeed whenever a
matching entry exists, and the snapshot is untouched. -/
theorem applyUpdates_inv (p l : String) (O : Catalog) :
    ∀ (vs : List String) (st : EditorState),
      AtMostOnePL p l st.unsavedChanges →
      ((∃ c ∈ st.unsavedChanges, matchPL p l c = true) →
        ∀ v, ∃ st2, updateTranslation st p l v = .ok st2) →
      st.originalData = O →
      AtMostOnePL p l (applyUpdates st p l vs).unsavedChanges ∧
      ((∃ c ∈ (applyUpdates st p l vs).unsavedChanges, matchPL p l c = true) →
        ∀ v, ∃ st2, updateTranslation (applyUpdates st p l vs) p l v = .ok st2) ∧
      (applyUpdates st p l vs).originalData = O := by
  intro vs
  induction vs with
  | nil =>
      intro st h1 h2 h3
      exact ⟨h1, h2, h3⟩
  | cons v vs ih =>
      intro st h1 h2 h3
      have hstep : applyUpdates st p l (v :: vs) =
          applyUpdates (step st (.update p l v)) p l vs := rfl
      rw [hstep]
      cases hok : updateTranslation st p l v with
      | error e =>
          have hsame : step st (.update p l v) = st := by simp [step, hok]
          rw [hsame]
          exact ih st h1 h2 h3
      | ok st' =>
          have hs : step st (.update p l v) = st' := by simp [step, hok]
          rw [hs]
          apply ih st'
          · exact amo_update st st' p l v h1 hok
          · intro _ v2
            exact update_again st st' p l v hok v2
          · rw [(languages_of_update st p l v st' hok).2, h3]

/-- A successful `updateTranslation` never stores a pending entry whose
new value equals its original value: the `reverted` check removes exactly
those. -/
theorem noNoop_update (st st' : EditorState) (p l v : String)
    (h : NoNoop st.unsavedChanges)
    (hok : updateTranslation st p l v = .ok st') :
    NoNoop st'.unsavedChanges := by
  simp only [updateTranslation] at hok
  split at hok
  · exact absurd hok (by simp)
  split at hok
  · exact absurd hok (by simp)
  next ov horig =>
  simp only [Except.ok.injEq] at hok
  subst hok
  simp only [NoNoop]
  split
  · split
    · next i hfind =>
        intro c hc
        exact h c (List.eraseIdx_subset _ _ hc)
    · exact h
  · next hrev =>
      have hgood : ∀ (lang : String), (⟨p, lang, ov, v⟩ : UnsavedChange).originalValue ≠
          .str (⟨p, lang, ov, v⟩ : UnsavedChange).newValue := by
        intro lang
        simp only []
        cases ov with
        | str s =>
            simp only [] at hrev
            intro hcon
            injection hcon with hsv
            rw [hsv] at hrev
            simp at hrev
        | obj o => intro hcon; exact JNode.noConfusion hcon
      split
      · next i hfind =>
          intro c hc _
          rcases List.mem_or_eq_of_mem_set hc with hmem | hEq
          · exact h c hmem (by assumption)
          · rw [hEq]
            exact hgood l
      · next hfind =>
          intro c hc _
          rcases List.mem_append.mp hc with hmem | hmem
          · exact h c hmem (by assumption)
          · simp only [List.mem_singleton] at hmem
            rw [hmem]
            exact hgood l

/-- Every operation preserves the no-no-op property of the non-sentinel
pending entries (rename appends a sentinel entry, which is exempt). -/
theorem noNoop_step (st : EditorState) (op : Op)
    (h : NoNoop st.unsavedChanges) : NoNoop (step st op).unsavedChanges := by
  cases op with
  | update p l v =>
      simp only [step]
      split
      · next st' hok => exact noNoop_update st st' p l v h hok
      · exact h
  | rename p n =>
      simp only [step]
      split
      · next st' hok =>
          simp only [renameKey] at hok
          split at hok
          · exact absurd hok (by simp)
          simp only [Except.ok.injEq] at hok
          subst hok
          intro c hc hlang
          rcases List.mem_append.mp hc with hmem | hmem
          · exact h c hmem hlang
          · simp only [List.mem_singleton] at hmem
            rw [hmem] at hlang
            exact absurd rfl hlang
      · exact h
  | addLang c =>
      simp only [step, addLanguage]
      split <;> exact h
  | removeLang c =>
      simp only [step, removeLanguage]
      split <;> exact h
  | save => intro c hc; simp [step, saveChanges] at hc
  | discard => intro c hc; simp [step, discardChanges] at hc

/-- Sequence version of `noNoop_step`. -/
theorem noNoop_applyOps (st : EditorState) (ops : List Op)
    (h : NoNoop st.unsavedChanges) : NoNoop (applyOps st ops).unsavedChanges := by
  induction ops generalizing st with
  | nil => exact h
  | cons op ops ih => exact ih (step st op) (noNoop_step st op h)

/-- C4 counterexample: renaming `auth` to its own name succeeds and
appends a pending entry whose original value equals its new value, so the
pending-changes list does contain a no-op edit (a sentinel one). -/
theorem C4_counterexample :
    ∃ st', renameKey demoState "auth" "auth" = .ok st' ∧
      ∃ c ∈ st'.unsavedChanges, c.originalValue = .str c.newValue := by
  refine ⟨_, rfl, ⟨"auth", renameSentinel, .str "auth", "auth"⟩, ?_, rfl⟩
  simp [demoState]
  decide

/-- C4 (amended): (a) from a state with no pending entry for `(p, l)`,
any sequence of `updateTranslation(p, l, ·)` calls whose last call passes
the Original Snapshot's value at `(p, l)` (an absent entry counting as the
empty string) leaves no pending entry for `(p, l)`; (b) no reachable
state's pending list contains a non-rename entry whose new value equals
its original value — rename (sentinel) entries are exempt, as
`C4_counterexample` forces. -/
theorem C4_idempotent_revert (st : EditorState) (p l v₀ : String) (vs : List String)
    (hNo : NoPL p l st.unsavedChanges)
    (hspec : specSnapshotValue st.originalData.translations p l = some v₀) :
    NoPL p l (applyUpdates st p l (vs ++ [v₀])).unsavedChanges ∧
    (∀ ops : List Op, NoNoop st.unsavedChanges → NoNoop (applyOps st ops).unsavedChanges) := by
  constructor
  · have hamo : AtMostOnePL p l st.unsavedChanges := by
      simp only [AtMostOnePL]
      have hz : st.unsavedChanges.countP (matchPL p l) = 0 :=
        List.countP_eq_zero.mpr (fun c hc => by simp [hNo c hc])
      omega
    have hsucc : (∃ c ∈ st.unsavedChanges, matchPL p l c = true) →
        ∀ v, ∃ st2, updateTranslation st p l v = .ok st2 := by
      rintro ⟨c, hc, hm⟩
      rw [hNo c hc] at hm
      exact absurd hm (by simp)
    obtain ⟨hA, hS, hO⟩ := applyUpdates_inv p l st.originalData vs st hamo hsucc rfl
    have hsplit : applyUpdates st p l (vs ++ [v₀]) =
        step (applyUpdates st p l vs) (.update p l v₀) := by
      simp [applyUpdates, applyOps, List.map_append, List.foldl_append]
    rw [hsplit]
    cases hok : updateTranslation (applyUpdates st p l vs) p l v₀ with
    | error e =>
        have hsame : step (applyUpdates st p l vs) (.update p l v₀) =
            applyUpdates st p l vs := by simp [step, hok]
        rw [hsame]
        intro c hc
        by_contra hcon
        have hx : ∃ c ∈ (applyUpdates st p l vs).unsavedChanges, matchPL p l c = true :=
          ⟨c, hc, by simpa using hcon⟩
        obtain ⟨st3, h3⟩ := hS hx v₀
        rw [hok] at h3
        exact Except.noConfusion h3
    | ok st' =>
        have hsame : step (applyUpdates st p l vs) (.update p l v₀) = st' := by
          simp [step, hok]
        rw [hsame]
        refine nopl_update_revert (applyUpdates st p l vs) st' p l v₀ hA ?_ hok
        rw [hO]
        exact hspec
  · intro ops hN
    exact noNoop_applyOps st ops hN

/-- C4 witness: on the demo catalog, editing `auth.login.title`/`de` to
`X` and back to `Anmelden` leaves no pending entry for the pair, and the
intermediate state has no no-op entry. -/
theorem C4_idempotent_revert_witness :
    NoPL "auth.login.title" "de"
      (applyUpdates demoState "auth.login.title" "de" (["X"] ++ ["Anmelden"])).unsavedChanges ∧
    NoNoop (applyOps demoState [.update "auth.login.title" "de" "X"]).unsavedChanges := by
  have h := C4_idempotent_revert demoState "auth.login.title" "de" "Anmelden" ["X"]
    (by intro c hc; simp [demoState] at hc) rfl
  exact ⟨h.1, h.2 [.update "auth.login.title" "de" "X"]
    (by intro c hc; simp [demoState] at hc)⟩
